import Mathlib

/-
Verification of the SchedLinSim scheduling-simulator engine (SchedLinSim.js and
its scheduling classes) against its natural-language specification.

The JavaScript source is shallowly embedded: each JS function used by a claim is
translated into a Lean definition of the same name (camelCase kept).  Simulated
times are natural numbers (integer nanoseconds).  JS exceptions (`throw new
Error(...)`) are modelled with `Except String`.  The red-black tree library
(redblack.js, a vendored third-party dependency) is modelled by its ordered-map
contract: a `List (key, value)` association list with strictly increasing keys,
with `insert` (overwrite on equal key), `getDelete`, `leftmost` and
`leftmostDelete` operations exactly matching `Tree.prototype.*`.
-/

namespace SchedLinSim

/- ================================================================
   Part 1: the simulation event queue (Simulator.insertEvent /
   Simulator.getNextEvent), for claim C2.
   ================================================================ -/

/-- An event of the simulation queue.  Only the scheduled `time` matters for
queue ordering; `id` stands for the JS object identity of the event. -/
structure Event where
  id : Nat
  time : Nat
deriving DecidableEq, Repr

/-- A value stored at one key of the simulation queue: either a single event
(JS: the `Event` itself) or a co-time bucket (JS: an `Array` of events). -/
inductive Holder where
  | single : Event → Holder
  | bucket : List Event → Holder
deriving DecidableEq, Repr

/-- Ordered-map model of `redblack.tree()` keyed by time: an association list
with strictly increasing keys. -/
abbrev SimQueue := List (Nat × Holder)

/-- Tree.prototype.insert: place `v` at key `k`, overwriting an existing value
at an equal key (the JS insert assigns `node.value = value` on key equality). -/
def omapInsert (k : Nat) (v : Holder) : SimQueue → SimQueue
  | [] => [(k, v)]
  | (k0, v0) :: rest =>
    if k < k0 then (k, v) :: (k0, v0) :: rest
    else if k = k0 then (k, v) :: rest
    else (k0, v0) :: omapInsert k v rest

/-- Tree.prototype.getDelete: return the value at key `k` (or `none`) and the
map with that key removed. -/
def omapGetDelete (k : Nat) : SimQueue → Option Holder × SimQueue
  | [] => (none, [])
  | (k0, v0) :: rest =>
    if k = k0 then (some v0, rest)
    else
      let r := omapGetDelete k rest
      (r.1, (k0, v0) :: r.2)

/-- Tree.prototype.leftmost: the value at the smallest key, without removal. -/
def omapLeftmost (q : SimQueue) : Option Holder :=
  q.head?.map (·.2)

/-- Tree.prototype.leftmostDelete: the value at the smallest key, and the map
with that key removed. -/
def omapLeftmostDelete : SimQueue → Option Holder × SimQueue
  | [] => (none, [])
  | (_, v0) :: rest => (some v0, rest)

/-- Holder-extension chain of `insertEvent`: wrap a colliding single event into
a two-element bucket, append to an existing bucket, else store the scalar. -/
def bucketAppend : Option Holder → Event → Holder
  | some (Holder.single e), evt => Holder.bucket [e, evt]
  | some (Holder.bucket es), evt => Holder.bucket (es ++ [evt])
  | none, evt => Holder.single evt

/-- Body of `insertEvent` after its past-time guard: fetch-and-delete the
holder at `evt.time`, extend it (bucket-append on collision), re-insert. -/
def insertEventCore (evt : Event) (q : SimQueue) : SimQueue :=
  let r := omapGetDelete evt.time q
  omapInsert evt.time (bucketAppend r.1 evt) r.2

/-- Simulator.insertEvent: reject events scheduled in the past, otherwise
insert with FIFO bucketing of co-time events. -/
def insertEvent (now : Nat) (evt : Event) (q : SimQueue) : Except String SimQueue :=
  if evt.time < now then
    Except.error "cannot insert event at a time that has already passed."
  else
    Except.ok (insertEventCore evt q)

/-- Simulator.getNextEvent: pop the earliest event; on a co-time bucket, pop
the bucket head and re-insert the remainder (scalar when one event remains). -/
def getNextEvent (q : SimQueue) : Except String (Event × SimQueue) :=
  match omapLeftmostDelete q with
  | (some (Holder.single e), q1) => Except.ok (e, q1)
  | (some (Holder.bucket es), q1) =>
    match es with
    | [] => Except.error "the simulation queue is empty or has an invalid value stored in it."
    | [e] => Except.ok (e, q1)
    | [e1, e2] => Except.ok (e1, omapInsert e2.time (Holder.single e2) q1)
    | e1 :: e2 :: e3 :: rest =>
      Except.ok (e1, omapInsert e2.time (Holder.bucket (e2 :: e3 :: rest)) q1)
  | (none, _) => Except.error "the simulation queue is empty or has an invalid value stored in it."

/-- Events stored in one holder, in stored order. -/
def holderEvents : Holder → List Event
  | Holder.single e => [e]
  | Holder.bucket es => es

/-- All events of the queue, in key order, buckets in insertion order.  This is
exactly the order in which repeated `getNextEvent` calls return them. -/
def queueEvents (q : SimQueue) : List Event :=
  (q.map (fun p => holderEvents p.2)).flatten

/-- Well-formedness of a holder stored at key `k`: every event really is
scheduled at `k`, and a bucket holds at least two events (the JS code never
stores a shorter array). -/
def holderWF (k : Nat) : Holder → Prop
  | Holder.single e => e.time = k
  | Holder.bucket es => 2 ≤ es.length ∧ ∀ e ∈ es, e.time = k

/-- Well-formedness of the queue: keys strictly increase and every holder is
stored at its own time. -/
def queueWF (q : SimQueue) : Prop :=
  q.Pairwise (fun a b => a.1 < b.1) ∧ ∀ p ∈ q, holderWF p.1 p.2

/-- Stable insertion of an event into a time-sorted list: after all events with
a time less than or equal to its own, before all strictly later ones. -/
def insertByTime (e : Event) : List Event → List Event
  | [] => [e]
  | x :: xs => if x.time ≤ e.time then x :: insertByTime e xs else e :: x :: xs

/-- The queue obtained by inserting `evs` in order into an empty queue (the
reachable queue states of the engine, which only ever inserts via
`insertEvent`; `now = 0` places no restriction on the inserted times). -/
def buildQueue (evs : List Event) : SimQueue :=
  evs.foldl
    (fun q e =>
      match insertEvent 0 e q with
      | Except.ok q2 => q2
      | Except.error _ => q)
    []

/-- Stable sort of the insertion sequence: fold the stable single insertion. -/
def stableSortByTime (evs : List Event) : List Event :=
  evs.foldl (fun l e => insertByTime e l) []

/-- Repeatedly pop: the sequence of events successive `getNextEvent` calls
return, with enough fuel to drain the queue. -/
def drainAux : Nat → SimQueue → List Event
  | 0, _ => []
  | fuel + 1, q =>
    match getNextEvent q with
    | Except.ok (e, q2) => e :: drainAux fuel q2
    | Except.error _ => []

/-- Drain the whole queue by successive pops. -/
def drainQueue (q : SimQueue) : List Event :=
  drainAux (queueEvents q).length q

theorem omapInsert_front {k : Nat} {v : Holder} {q : SimQueue}
    (h : ∀ p ∈ q, k < p.1) : omapInsert k v q = (k, v) :: q := by
  cases q with
  | nil => rfl
  | cons p rest =>
    have hk : k < p.1 := h p (List.mem_cons_self p rest)
    rw [omapInsert]
    simp only [hk, if_true]

theorem omapGetDelete_not_mem {k : Nat} {q : SimQueue}
    (h : ∀ p ∈ q, p.1 ≠ k) : omapGetDelete k q = (none, q) := by
  induction q with
  | nil => rfl
  | cons p rest ih =>
    have hk : ¬ k = p.1 := fun hc => (h p (List.mem_cons_self p rest)) hc.symm
    have hrest := ih (fun x hx => h x (List.mem_cons_of_mem _ hx))
    rw [omapGetDelete]
    simp only [hk, if_false, hrest]

theorem omapInsert_mem {k : Nat} {v : Holder} {q : SimQueue} {p : Nat × Holder}
    (h : p ∈ omapInsert k v q) : p = (k, v) ∨ p ∈ q := by
  induction q with
  | nil =>
    rw [omapInsert] at h
    exact Or.inl (List.mem_singleton.mp h)
  | cons p0 rest ih =>
    rw [omapInsert] at h
    split at h
    · rcases List.mem_cons.mp h with h | h
      · exact Or.inl h
      · exact Or.inr h
    · split at h
      · rcases List.mem_cons.mp h with h | h
        · exact Or.inl h
        · exact Or.inr (List.mem_cons_of_mem _ h)
      · rcases List.mem_cons.mp h with h | h
        · exact Or.inr (h ▸ List.mem_cons_self p0 rest)
        · rcases ih h with h | h
          · exact Or.inl h
          · exact Or.inr (List.mem_cons_of_mem _ h)

theorem omapGetDelete_mem {k : Nat} {q : SimQueue} {p : Nat × Holder}
    (h : p ∈ (omapGetDelete k q).2) : p ∈ q := by
  induction q with
  | nil =>
    rw [omapGetDelete] at h
    exact absurd h (List.not_mem_nil p)
  | cons p0 rest ih =>
    rw [omapGetDelete] at h
    split at h
    · exact List.mem_cons_of_mem _ h
    · rcases List.mem_cons.mp h with h | h
      · exact h ▸ List.mem_cons_self p0 rest
      · exact List.mem_cons_of_mem _ (ih h)

theorem insertByTime_all_lt {e : Event} {l : List Event}
    (h : ∀ x ∈ l, e.time < x.time) : insertByTime e l = e :: l := by
  cases l with
  | nil => rfl
  | cons x xs =>
    have hx : ¬ x.time ≤ e.time := Nat.not_le.mpr (h x (List.mem_cons_self x xs))
    rw [insertByTime]
    simp only [hx, if_false]

theorem insertByTime_append_le {e : Event} {l1 l2 : List Event}
    (h : ∀ x ∈ l1, x.time ≤ e.time) :
    insertByTime e (l1 ++ l2) = l1 ++ insertByTime e l2 := by
  induction l1 with
  | nil => rfl
  | cons x xs ih =>
    have hx : x.time ≤ e.time := h x (List.mem_cons_self x xs)
    have hxs := ih (fun y hy => h y (List.mem_cons_of_mem _ hy))
    rw [List.cons_append, insertByTime]
    simp only [hx, if_true, hxs, List.cons_append]

theorem insertByTime_perm (e : Event) (l : List Event) :
    List.Perm (insertByTime e l) (e :: l) := by
  induction l with
  | nil => exact List.Perm.refl _
  | cons x xs ih =>
    rw [insertByTime]
    split
    · exact (ih.cons x).trans (List.Perm.swap e x xs)
    · exact List.Perm.refl _

theorem insertByTime_sorted {e : Event} {l : List Event}
    (h : l.Pairwise (fun a b => a.time ≤ b.time)) :
    (insertByTime e l).Pairwise (fun a b => a.time ≤ b.time) := by
  induction l with
  | nil =>
    rw [insertByTime]
    exact List.pairwise_singleton _ _
  | cons x xs ih =>
    rcases List.pairwise_cons.mp h with ⟨hx, hxs⟩
    rw [insertByTime]
    split
    · rename_i hle
      refine List.pairwise_cons.mpr ⟨?_, ih hxs⟩
      intro y hy
      rcases List.mem_cons.mp ((insertByTime_perm e xs).mem_iff.mp hy) with hy | hy
      · exact hy ▸ hle
      · exact hx y hy
    · rename_i hle
      refine List.pairwise_cons.mpr ⟨?_, h⟩
      intro y hy
      rcases List.mem_cons.mp hy with hy | hy
      · exact hy ▸ Nat.le_of_lt (Nat.not_le.mp hle)
      · exact Nat.le_trans (Nat.le_of_lt (Nat.not_le.mp hle)) (hx y hy)

theorem holderWF_single {k : Nat} {e : Event} :
    holderWF k (Holder.single e) ↔ e.time = k := Iff.rfl

theorem holderWF_bucket {k : Nat} {es : List Event} :
    holderWF k (Holder.bucket es) ↔ 2 ≤ es.length ∧ ∀ e ∈ es, e.time = k := Iff.rfl

theorem holderWF_bucketAppend {k : Nat} {ho : Option Holder} {e : Event}
    (hv : ∀ v, ho = some v → holderWF k v) (he : e.time = k) :
    holderWF k (bucketAppend ho e) := by
  rcases ho with _ | v
  · exact he
  · have hv0 := hv v rfl
    rcases v with x | es
    · refine holderWF_bucket.mpr ⟨by simp, ?_⟩
      intro y hy
      rcases List.mem_cons.mp hy with hy | hy
      · exact hy ▸ (holderWF_single.mp hv0)
      · rw [List.mem_singleton.mp hy]
        exact he
    · rcases holderWF_bucket.mp hv0 with ⟨hlen, htimes⟩
      refine holderWF_bucket.mpr ⟨?_, ?_⟩
      · rw [List.length_append]
        omega
      · intro y hy
        rcases List.mem_append.mp hy with hy | hy
        · exact htimes y hy
        · rw [List.mem_singleton.mp hy]
          exact he

theorem queueEvents_nil : queueEvents [] = [] := rfl

theorem queueEvents_cons (k : Nat) (v : Holder) (rest : SimQueue) :
    queueEvents ((k, v) :: rest) = holderEvents v ++ queueEvents rest := by
  simp [queueEvents]

theorem holderEvents_bucketAppend (h : Option Holder) (e : Event) :
    holderEvents (bucketAppend h e) =
      (match h with | some v => holderEvents v | none => []) ++ [e] := by
  rcases h with _ | v
  · rfl
  · cases v <;> rfl

theorem queueEvents_time_mem {q : SimQueue} (hwf : queueWF q) {x : Event}
    (hx : x ∈ queueEvents q) : ∃ p ∈ q, x.time = p.1 := by
  rcases hwf with ⟨_, hkeys⟩
  rcases List.mem_flatten.mp hx with ⟨l, hl, hxl⟩
  rcases List.mem_map.mp hl with ⟨p, hp, rfl⟩
  refine ⟨p, hp, ?_⟩
  have := hkeys p hp
  rcases hpv : p.2 with e | es
  · rw [hpv] at hxl this
    rw [List.mem_singleton.mp hxl]
    exact this
  · rw [hpv] at hxl this
    exact this.2 x hxl

theorem queueWF_cons_elim {k0 : Nat} {v0 : Holder} {rest : SimQueue}
    (h : queueWF ((k0, v0) :: rest)) :
    (∀ p ∈ rest, k0 < p.1) ∧ holderWF k0 v0 ∧ queueWF rest := by
  rcases h with ⟨hsort, hkeys⟩
  rcases List.pairwise_cons.mp hsort with ⟨hlt, hrest⟩
  exact ⟨hlt, hkeys (k0, v0) (List.mem_cons_self _ _),
    hrest, fun p hp => hkeys p (List.mem_cons_of_mem _ hp)⟩

theorem insertEventCore_wf {e : Event} {q : SimQueue} (hwf : queueWF q) :
    queueWF (insertEventCore e q) := by
  induction q with
  | nil =>
    refine ⟨List.pairwise_singleton _ _, ?_⟩
    intro p hp
    rw [List.mem_singleton.mp hp]
    exact rfl
  | cons p0 rest ih =>
    rcases p0 with ⟨k0, v0⟩
    rcases queueWF_cons_elim hwf with ⟨hlt, hwf0, hwfrest⟩
    rcases Nat.lt_trichotomy e.time k0 with hc | hc | hc
    · -- new earliest key: getDelete finds nothing, scalar goes in front
      have hgd : omapGetDelete e.time ((k0, v0) :: rest) = (none, (k0, v0) :: rest) := by
        refine omapGetDelete_not_mem ?_
        intro p hp
        rcases List.mem_cons.mp hp with hp | hp
        · rw [hp]
          exact Nat.ne_of_gt hc
        · exact Nat.ne_of_gt (Nat.lt_trans hc (hlt p hp))
      rw [insertEventCore, hgd]
      rw [show omapInsert e.time (bucketAppend none e) ((k0, v0) :: rest) =
          (e.time, bucketAppend none e) :: (k0, v0) :: rest by
        rw [omapInsert]
        simp only [hc, if_true]]
      refine ⟨?_, ?_⟩
      · refine List.pairwise_cons.mpr ⟨?_, hwf.1⟩
        intro p hp
        rcases List.mem_cons.mp hp with hp | hp
        · rw [hp]
          exact hc
        · exact Nat.lt_trans hc (hlt p hp)
      · intro p hp
        rcases List.mem_cons.mp hp with hp | hp
        · rw [hp]
          exact rfl
        · exact hwf.2 p hp
    · -- key collision: bucket-append and put back in front of the tail
      have hgd : omapGetDelete e.time ((k0, v0) :: rest) = (some v0, rest) := by
        rw [omapGetDelete]
        simp only [hc, if_true]
      rw [insertEventCore, hgd]
      rw [omapInsert_front (fun p hp => hc ▸ hlt p hp)]
      refine ⟨List.pairwise_cons.mpr ⟨fun p hp => hc ▸ hlt p hp, hwfrest.1⟩, ?_⟩
      intro p hp
      rcases List.mem_cons.mp hp with hp | hp
      · rw [hp]
        show holderWF e.time (bucketAppend (some v0) e)
        rw [hc]
        exact holderWF_bucketAppend (fun v hveq => (Option.some.inj hveq) ▸ hwf0) hc
      · exact hwfrest.2 p hp
    · -- key goes past the head: structural recursion into the tail
      have hne : ¬ e.time = k0 := Nat.ne_of_gt hc
      have hstep : insertEventCore e ((k0, v0) :: rest) =
          (k0, v0) :: insertEventCore e rest := by
        rw [insertEventCore, insertEventCore, omapGetDelete]
        simp only [hne, if_false]
        rw [omapInsert]
        simp only [Nat.not_lt.mpr (Nat.le_of_lt hc), hne, if_false]
      rw [hstep]
      have hwftail := ih hwfrest
      refine ⟨List.pairwise_cons.mpr ⟨?_, hwftail.1⟩, ?_⟩
      · intro p hp
        rcases omapInsert_mem hp with hp | hp
        · rw [hp]
          exact hc
        · exact hlt p (omapGetDelete_mem hp)
      · intro p hp
        rcases List.mem_cons.mp hp with hp | hp
        · rw [hp]
          exact hwf.2 (k0, v0) (List.mem_cons_self _ _)
        · exact hwftail.2 p hp

theorem queueEvents_insertEventCore {e : Event} {q : SimQueue} (hwf : queueWF q) :
    queueEvents (insertEventCore e q) = insertByTime e (queueEvents q) := by
  induction q with
  | nil => rfl
  | cons p0 rest ih =>
    rcases p0 with ⟨k0, v0⟩
    rcases queueWF_cons_elim hwf with ⟨hlt, hwf0, hwfrest⟩
    have hv0times : ∀ y ∈ holderEvents v0, y.time = k0 := by
      intro y hy
      rcases v0 with x | es
      · rw [List.mem_singleton.mp hy]
        exact hwf0
      · exact hwf0.2 y hy
    have hresttimes : ∀ y ∈ queueEvents rest, k0 < y.time := by
      intro y hy
      rcases queueEvents_time_mem hwfrest hy with ⟨p, hp, hyp⟩
      rw [hyp]
      exact hlt p hp
    rcases Nat.lt_trichotomy e.time k0 with hc | hc | hc
    · have hgd : omapGetDelete e.time ((k0, v0) :: rest) = (none, (k0, v0) :: rest) := by
        refine omapGetDelete_not_mem ?_
        intro p hp
        rcases List.mem_cons.mp hp with hp | hp
        · rw [hp]
          exact Nat.ne_of_gt hc
        · exact Nat.ne_of_gt (Nat.lt_trans hc (hlt p hp))
      rw [insertEventCore, hgd]
      rw [show omapInsert e.time (bucketAppend none e) ((k0, v0) :: rest) =
          (e.time, bucketAppend none e) :: (k0, v0) :: rest by
        rw [omapInsert]
        simp only [hc, if_true]]
      rw [insertByTime_all_lt (by
        intro x hx
        rcases queueEvents_time_mem hwf hx with ⟨p, hp, hxp⟩
        rcases List.mem_cons.mp hp with hp | hp
        · rw [hxp, hp]
          exact hc
        · rw [hxp]
          exact Nat.lt_trans hc (hlt p hp))]
      rfl
    · have hgd : omapGetDelete e.time ((k0, v0) :: rest) = (some v0, rest) := by
        rw [omapGetDelete]
        simp only [hc, if_true]
      rw [insertEventCore, hgd]
      rw [omapInsert_front (fun p hp => hc ▸ hlt p hp)]
      rw [queueEvents_cons, queueEvents_cons, holderEvents_bucketAppend]
      rw [insertByTime_append_le (fun x hx => Nat.le_of_eq ((hv0times x hx).trans hc.symm))]
      rw [insertByTime_all_lt (fun x hx => hc ▸ hresttimes x hx)]
      simp
    · have hne : ¬ e.time = k0 := Nat.ne_of_gt hc
      have hstep : insertEventCore e ((k0, v0) :: rest) =
          (k0, v0) :: insertEventCore e rest := by
        rw [insertEventCore, insertEventCore, omapGetDelete]
        simp only [hne, if_false]
        rw [omapInsert]
        simp only [Nat.not_lt.mpr (Nat.le_of_lt hc), hne, if_false]
      rw [hstep, queueEvents_cons, queueEvents_cons, ih hwfrest]
      rw [insertByTime_append_le (fun x hx => Nat.le_of_lt (hv0times x hx ▸ hc))]

theorem insertEvent_zero (e : Event) (q : SimQueue) :
    insertEvent 0 e q = Except.ok (insertEventCore e q) := by
  rw [insertEvent]
  simp

theorem buildQueue_general (evs : List Event) :
    ∀ q : SimQueue, queueWF q →
      queueWF (evs.foldl
        (fun q e =>
          match insertEvent 0 e q with
          | Except.ok q2 => q2
          | Except.error _ => q) q) ∧
      queueEvents (evs.foldl
        (fun q e =>
          match insertEvent 0 e q with
          | Except.ok q2 => q2
          | Except.error _ => q) q) =
        evs.foldl (fun l e => insertByTime e l) (queueEvents q) := by
  induction evs with
  | nil => exact fun q hwf => ⟨hwf, rfl⟩
  | cons e rest ih =>
    intro q hwf
    have hstep :
        (match insertEvent 0 e q with
         | Except.ok q2 => q2
         | Except.error _ => q) = insertEventCore e q := by
      rw [insertEvent_zero]
    rw [List.foldl_cons, List.foldl_cons, hstep]
    rcases ih (insertEventCore e q) (insertEventCore_wf hwf) with ⟨hwf2, hev2⟩
    exact ⟨hwf2, by rw [hev2, queueEvents_insertEventCore hwf]⟩

theorem buildQueue_wf (evs : List Event) : queueWF (buildQueue evs) :=
  (buildQueue_general evs [] ⟨List.Pairwise.nil, by intro p hp; cases hp⟩).1

theorem queueEvents_buildQueue (evs : List Event) :
    queueEvents (buildQueue evs) = stableSortByTime evs :=
  (buildQueue_general evs [] ⟨List.Pairwise.nil, by intro p hp; cases hp⟩).2

theorem stableSort_sorted (evs : List Event) :
    (stableSortByTime evs).Pairwise (fun a b => a.time ≤ b.time) := by
  have hgen : ∀ (l : List Event) (acc : List Event),
      acc.Pairwise (fun a b => a.time ≤ b.time) →
      (l.foldl (fun l e => insertByTime e l) acc).Pairwise (fun a b => a.time ≤ b.time) := by
    intro l
    induction l with
    | nil => exact fun acc h => h
    | cons e rest ih => exact fun acc h => ih _ (insertByTime_sorted h)
  exact hgen evs [] List.Pairwise.nil

theorem stableSort_perm (evs : List Event) :
    List.Perm (stableSortByTime evs) evs := by
  have hgen : ∀ (l acc : List Event),
      List.Perm (l.foldl (fun l e => insertByTime e l) acc) (l ++ acc) := by
    intro l
    induction l with
    | nil => exact fun acc => List.Perm.refl _
    | cons e rest ih =>
      intro acc
      refine ((ih (insertByTime e acc)).trans ?_)
      refine (List.Perm.append_left rest (insertByTime_perm e acc)).trans ?_
      exact List.perm_middle
  simpa using hgen evs []

theorem find?_append_none {p : Event → Bool} {l1 l2 : List Event}
    (h : l1.find? p = none) : (l1 ++ l2).find? p = l2.find? p := by
  induction l1 with
  | nil => rfl
  | cons x xs ih =>
    rw [List.find?_cons] at h
    rcases hpx : p x with _ | _
    · rw [List.cons_append, List.find?_cons, hpx]
      exact ih (by rwa [hpx] at h; )
    · rw [hpx] at h
      exact absurd h (by simp)

theorem find?_append_some {p : Event → Bool} {l1 l2 : List Event} {b : Event}
    (h : l1.find? p = some b) : (l1 ++ l2).find? p = some b := by
  induction l1 with
  | nil => exact absurd h (by simp)
  | cons x xs ih =>
    rw [List.find?_cons] at h
    rcases hpx : p x with _ | _
    · rw [List.cons_append, List.find?_cons, hpx]
      exact ih (by rwa [hpx] at h)
    · rw [hpx] at h
      rw [List.cons_append, List.find?_cons, hpx]
      exact h

theorem stableSort_head (evs : List Event) (hne : evs ≠ []) :
    ∃ e t, stableSortByTime evs = e :: t ∧
      (∀ x ∈ evs, e.time ≤ x.time) ∧
      evs.find? (fun x => x.time == e.time) = some e := by
  induction evs using List.reverseRecOn with
  | nil => exact absurd rfl hne
  | append_singleton l a ih =>
    have hsplit : stableSortByTime (l ++ [a]) = insertByTime a (stableSortByTime l) := by
      rw [stableSortByTime, List.foldl_append]
      rfl
    rcases List.eq_nil_or_concat l with rfl | _
    · refine ⟨a, [], by rw [hsplit]; rfl, ?_, ?_⟩
      · intro x hx
        have hxa : x = a := by simpa using hx
        rw [hxa]
      · simp
    · have hlne : l ≠ [] := by
        rename_i hcon
        rcases hcon with ⟨l2, b, rfl⟩
        simp
      rcases ih hlne with ⟨e, t, heq, hmin, hfind⟩
      by_cases hle : e.time ≤ a.time
      · refine ⟨e, insertByTime a t, ?_, ?_, ?_⟩
        · rw [hsplit, heq, insertByTime]
          simp only [hle, if_true]
        · intro x hx
          rcases List.mem_append.mp hx with hx | hx
          · exact hmin x hx
          · rw [List.mem_singleton.mp hx]
            exact hle
        · exact find?_append_some hfind
      · have hlt : a.time < e.time := Nat.not_le.mp hle
        refine ⟨a, e :: t, ?_, ?_, ?_⟩
        · rw [hsplit, heq, insertByTime]
          simp only [hle, if_false]
        · intro x hx
          rcases List.mem_append.mp hx with hx | hx
          · exact Nat.le_of_lt (Nat.lt_of_lt_of_le hlt (hmin x hx))
          · rw [List.mem_singleton.mp hx]
        · have hnone : l.find? (fun x => x.time == a.time) = none := by
            refine List.find?_eq_none.mpr ?_
            intro x hx
            simp only [beq_iff_eq]
            exact Nat.ne_of_gt (Nat.lt_of_lt_of_le hlt (hmin x hx))
          rw [find?_append_none hnone]
          simp

theorem getNextEvent_cons {q : SimQueue} (hwf : queueWF q) (hne : q ≠ []) :
    ∃ e q2, getNextEvent q = Except.ok (e, q2) ∧
      queueEvents q = e :: queueEvents q2 ∧ queueWF q2 := by
  rcases q with _ | ⟨⟨k0, v0⟩, rest⟩
  · exact absurd rfl hne
  · rcases queueWF_cons_elim hwf with ⟨hlt, hwf0, hwfrest⟩
    rcases v0 with e | es
    · exact ⟨e, rest, rfl, by rw [queueEvents_cons]; rfl, hwfrest⟩
    · rcases holderWF_bucket.mp hwf0 with ⟨hlen, htimes⟩
      rcases es with _ | ⟨e1, _ | ⟨e2, _ | ⟨e3, tl⟩⟩⟩
      · exact absurd hlen (by simp)
      · exact absurd hlen (by simp)
      · -- two-event bucket: pop the head, re-insert the survivor as a scalar
        have ht2 : e2.time = k0 := htimes e2 (by simp)
        have hins : omapInsert e2.time (Holder.single e2) rest =
            (e2.time, Holder.single e2) :: rest :=
          omapInsert_front (fun p hp => ht2 ▸ hlt p hp)
        refine ⟨e1, omapInsert e2.time (Holder.single e2) rest, rfl, ?_, ?_⟩
        · rw [hins, queueEvents_cons, queueEvents_cons]
          rfl
        · rw [hins]
          refine ⟨List.pairwise_cons.mpr ⟨fun p hp => ht2 ▸ hlt p hp, hwfrest.1⟩, ?_⟩
          intro p hp
          rcases List.mem_cons.mp hp with hp | hp
          · rw [hp]
            exact holderWF_single.mpr rfl
          · exact hwfrest.2 p hp
      · -- longer bucket: pop the head, re-insert the remaining bucket
        have ht2 : e2.time = k0 := htimes e2 (by simp)
        have hins : omapInsert e2.time (Holder.bucket (e2 :: e3 :: tl)) rest =
            (e2.time, Holder.bucket (e2 :: e3 :: tl)) :: rest :=
          omapInsert_front (fun p hp => ht2 ▸ hlt p hp)
        refine ⟨e1, omapInsert e2.time (Holder.bucket (e2 :: e3 :: tl)) rest, rfl, ?_, ?_⟩
        · rw [hins, queueEvents_cons, queueEvents_cons]
          rfl
        · rw [hins]
          refine ⟨List.pairwise_cons.mpr ⟨fun p hp => ht2 ▸ hlt p hp, hwfrest.1⟩, ?_⟩
          intro p hp
          rcases List.mem_cons.mp hp with hp | hp
          · rw [hp]
            refine holderWF_bucket.mpr ⟨by simp, ?_⟩
            intro y hy
            rw [ht2]
            exact htimes y (List.mem_cons_of_mem _ hy)
          · exact hwfrest.2 p hp

theorem drainAux_eq {n : Nat} :
    ∀ {q : SimQueue}, queueWF q → (queueEvents q).length = n →
      drainAux n q = queueEvents q := by
  induction n with
  | zero =>
    intro q _ hn
    rw [List.length_eq_zero.mp hn]
    rfl
  | succ n ih =>
    intro q hwf hn
    have hqne : q ≠ [] := by
      intro hq
      rw [hq] at hn
      exact absurd hn (by simp [queueEvents])
    rcases getNextEvent_cons hwf hqne with ⟨e, q2, hok, hcons, hwf2⟩
    have hlen2 : (queueEvents q2).length = n := by
      rw [hcons] at hn
      simpa using hn
    rw [drainAux, hok]
    show e :: drainAux n q2 = queueEvents q
    rw [ih hwf2 hlen2, hcons]

theorem drainQueue_eq {q : SimQueue} (hwf : queueWF q) :
    drainQueue q = queueEvents q :=
  drainAux_eq hwf rfl

/-- C2: for every queue state reachable by `insertEvent` calls, `getNextEvent`
returns an event of minimal time, and among co-time events the one inserted
earliest (stable FIFO); the remaining queue holds exactly the other events in
the same order, and the full sequence of successive pops (`drainQueue`) has
non-decreasing times, so no pop ever returns an earlier time than a previous
pop. -/
theorem eventQueue_pop_min_fifo (evs : List Event) :
    (drainQueue (buildQueue evs)).Pairwise (fun a b => a.time ≤ b.time) ∧
    (∀ e q2, getNextEvent (buildQueue evs) = Except.ok (e, q2) →
      queueEvents (buildQueue evs) = e :: queueEvents q2 ∧
      (∀ x ∈ evs, e.time ≤ x.time) ∧
      evs.find? (fun x => x.time == e.time) = some e) ∧
    (evs ≠ [] → ∃ p, getNextEvent (buildQueue evs) = Except.ok p) := by
  have hwf := buildQueue_wf evs
  have hev := queueEvents_buildQueue evs
  have hqne : evs ≠ [] → buildQueue evs ≠ [] := by
    intro hne hq
    have : queueEvents (buildQueue evs) = [] := by rw [hq]; rfl
    rw [hev] at this
    exact hne (List.Perm.eq_nil ((stableSort_perm evs).symm.trans (this ▸ List.Perm.refl _)))
  refine ⟨?_, ?_, ?_⟩
  · rw [drainQueue_eq hwf, hev]
    exact stableSort_sorted evs
  · intro e q2 hok
    have hne : evs ≠ [] := by
      intro h
      rw [h] at hok
      exact absurd hok (by intro hc; cases hc)
    rcases getNextEvent_cons hwf (hqne hne) with ⟨e0, q20, hok0, hcons, _⟩
    rw [hok] at hok0
    have hpair : (e, q2) = (e0, q20) := Except.ok.inj hok0
    have he : e = e0 := congrArg Prod.fst hpair
    have hq2 : q2 = q20 := congrArg Prod.snd hpair
    subst he
    subst hq2
    rcases stableSort_head evs hne with ⟨e1, t1, hst, hmin, hfind⟩
    have h1 : queueEvents (buildQueue evs) = e1 :: t1 := hev.trans hst
    rw [hcons] at h1
    have he1 : e = e1 := by injection h1
    subst he1
    exact ⟨hcons, hmin, hfind⟩
  · intro hne
    rcases getNextEvent_cons hwf (hqne hne) with ⟨e0, q20, hok0, _, _⟩
    exact ⟨(e0, q20), hok0⟩

/-- Witness for C2 at a concrete input: of two co-time events at time 3, the
pop returns the earlier-inserted one (id 11), which is also first among all
queued events by time. -/
theorem eventQueue_pop_min_fifo_witness :
    queueEvents (buildQueue [⟨10, 5⟩, ⟨11, 3⟩, ⟨12, 3⟩, ⟨13, 7⟩]) =
      Event.mk 11 3 ::
        queueEvents [(3, Holder.single ⟨12, 3⟩), (5, Holder.single ⟨10, 5⟩),
          (7, Holder.single ⟨13, 7⟩)] ∧
    ([Event.mk 10 5, Event.mk 11 3, Event.mk 12 3, Event.mk 13 7].find?
      (fun x => x.time == (Event.mk 11 3).time) = some (Event.mk 11 3)) := by
  have h := (eventQueue_pop_min_fifo [⟨10, 5⟩, ⟨11, 3⟩, ⟨12, 3⟩, ⟨13, 7⟩]).2.1
    ⟨11, 3⟩
    [(3, Holder.single ⟨12, 3⟩), (5, Holder.single ⟨10, 5⟩), (7, Holder.single ⟨13, 7⟩)]
    (by rfl)
  exact ⟨h.1, h.2.2⟩

/- ================================================================
   Part 2: the kernel dispatch cycle of Simulator.pickNext (claims C1
   and C10): the putPrev-iff-picked protocol and the contextSwitches
   counter.
   ================================================================ -/

/-- Observable behaviour of one scheduling class's `pickNext(prev)` call:
the process it returns (`none` models JS `null`) and whether it calls
`Simulator.putPrev(prev)` while running (which sets `Simulator.calledPutPrev`
via `SchedClass.putPrev`). -/
structure PolicyBeh where
  ret : Option Nat
  callsPutPrev : Bool
deriving DecidableEq, Repr

/-- Kernel-side state across the priority-order loop of `Simulator.pickNext`:
the winning process so far, the `Simulator.calledPutPrev` flag, and a ghost
counter of how many `putPrev` calls were made during the cycle. -/
structure DispatchState where
  next : Option Nat
  calledPutPrev : Bool
  putPrevCalls : Nat
deriving DecidableEq, Repr

/-- Value of `Simulator.calledPutPrev` at the start of the loop
(`sim.calledPutPrev = false`). -/
def dispatchInit : DispatchState := ⟨none, false, 0⟩

/-- One iteration of the priority-order loop of `Simulator.pickNext`.  When a
winner already exists the class only gets `updateLatency()`.  Otherwise the
class's `pickNext` runs (`SchedClass.pickNext` first throws if the flag is
already set), and the kernel then enforces: a returned process without a
`putPrev` call is fatal, and a `putPrev` call without a returned process is
fatal. -/
def dispatchStep (st : DispatchState) (p : PolicyBeh) : Except String DispatchState :=
  match st.next with
  | some _ => Except.ok st
  | none =>
    if st.calledPutPrev then
      Except.error "simulatorPutPrev true at the start of pickNext. A previous scheduling class likely called putPrev but returned null!"
    else
      let st2 : DispatchState :=
        ⟨p.ret, st.calledPutPrev || p.callsPutPrev,
          st.putPrevCalls + (if p.callsPutPrev then 1 else 0)⟩
      match p.ret with
      | some _ =>
        if st2.calledPutPrev then Except.ok st2
        else Except.error "the scheduling class returned a process to run, but never made a call to Simulator.putPrev(prev)."
      | none =>
        if st2.calledPutPrev then
          Except.error "the scheduling class returned null, but made a call to prev.schedClass.putPrev(prev)."
        else Except.ok st2

/-- Dispatch cycle of `Simulator.pickNext`: fold the loop over the active
classes in priority order, highest first. -/
def dispatchRun (ps : List PolicyBeh) : Except String DispatchState :=
  ps.foldlM dispatchStep dispatchInit

/-- Simulator.pickNext tail: if no class returned a process the idle task runs
and `contextSwitches` is untouched; otherwise `contextSwitches++`.  The first
component is the picked process (`none` = idle). -/
def pickNextContextSwitches (ps : List PolicyBeh) (cs : Nat) :
    Except String (Option Nat × Nat) :=
  (dispatchRun ps).map fun st =>
    match st.next with
    | some t => (some t, cs + 1)
    | none => (none, cs)

/-- A class whose `pickNext` violates the kernel protocol: it returns a
process without calling `putPrev`, or returns null after calling it. -/
def violatesProtocol (p : PolicyBeh) : Prop :=
  (p.ret.isSome ∧ p.callsPutPrev = false) ∨ (p.ret = none ∧ p.callsPutPrev = true)

/-- A class that correctly reports it has nothing to run: returns null and
does not call `putPrev`. -/
def quietNone (p : PolicyBeh) : Prop :=
  p.ret = none ∧ p.callsPutPrev = false

/-- A protocol violation actually reached by the loop: some class violates the
protocol and every higher-priority class before it returned null quietly
(classes after a winner are never asked). -/
inductive DispatchViolation : List PolicyBeh → Prop
  | here {p : PolicyBeh} {ps : List PolicyBeh} :
      violatesProtocol p → DispatchViolation (p :: ps)
  | there {p : PolicyBeh} {ps : List PolicyBeh} :
      quietNone p → DispatchViolation ps → DispatchViolation (p :: ps)

theorem dispatchStep_skip {st : DispatchState} (h : st.next.isSome = true)
    (p : PolicyBeh) : dispatchStep st p = Except.ok st := by
  rcases hn : st.next with _ | t
  · rw [hn] at h
    exact absurd h (by simp)
  · rw [dispatchStep, hn]

theorem foldlM_dispatch_skip {st : DispatchState} (h : st.next.isSome = true) :
    ∀ ps : List PolicyBeh, ps.foldlM dispatchStep st = Except.ok st := by
  intro ps
  induction ps with
  | nil => rfl
  | cons p rest ih =>
    rw [List.foldlM_cons, dispatchStep_skip h]
    exact ih

theorem dispatchRun_cons_quiet {p : PolicyBeh} (hq : quietNone p)
    (ps : List PolicyBeh) : dispatchRun (p :: ps) = dispatchRun ps := by
  rcases hq with ⟨hr, hc⟩
  rw [dispatchRun, List.foldlM_cons]
  have hstep : dispatchStep dispatchInit p = Except.ok dispatchInit := by
    rw [dispatchStep]
    simp [dispatchInit, hr, hc]
  rw [hstep]
  rfl

theorem dispatchRun_cons_winner {p : PolicyBeh} {t : Nat} (hr : p.ret = some t)
    (hc : p.callsPutPrev = true) (ps : List PolicyBeh) :
    dispatchRun (p :: ps) = Except.ok ⟨some t, true, 1⟩ := by
  rw [dispatchRun, List.foldlM_cons]
  have hstep : dispatchStep dispatchInit p = Except.ok ⟨some t, true, 1⟩ := by
    rw [dispatchStep]
    simp [dispatchInit, hr, hc]
  rw [hstep]
  exact foldlM_dispatch_skip (by rfl) ps

theorem dispatchRun_cons_viol {p : PolicyBeh} (hv : violatesProtocol p)
    (ps : List PolicyBeh) : ∃ s, dispatchRun (p :: ps) = Except.error s := by
  rcases hv with ⟨hsome, hc⟩ | ⟨hnone, hc⟩
  · rcases hr : p.ret with _ | t
    · rw [hr] at hsome
      exact absurd hsome (by simp)
    · have hstep : dispatchStep dispatchInit p = Except.error
          "the scheduling class returned a process to run, but never made a call to Simulator.putPrev(prev)." := by
        rw [dispatchStep]
        simp [dispatchInit, hr, hc]
      exact ⟨_, by rw [dispatchRun, List.foldlM_cons, hstep]; rfl⟩
  · have hstep : dispatchStep dispatchInit p = Except.error
        "the scheduling class returned null, but made a call to prev.schedClass.putPrev(prev)." := by
      rw [dispatchStep]
      simp [dispatchInit, hnone, hc]
    exact ⟨_, by rw [dispatchRun, List.foldlM_cons, hstep]; rfl⟩

/-- C1: across a dispatch cycle of `Simulator.pickNext`, `putPrev` is called
exactly once iff some scheduling class returned a process (the ghost counter
`putPrevCalls` is 1 on a pick and 0 on an idle fall-through), and the cycle
throws (does not complete) precisely when a reached class returns a process
without calling `putPrev` or returns null after calling it. -/
theorem pickNext_putPrev_protocol (ps : List PolicyBeh) :
    (∀ st, dispatchRun ps = Except.ok st →
      st.putPrevCalls = if st.next.isSome then 1 else 0) ∧
    ((∃ s, dispatchRun ps = Except.error s) ↔ DispatchViolation ps) := by
  induction ps with
  | nil =>
    refine ⟨?_, ?_, ?_⟩
    · intro st hst
      have : st = dispatchInit := (Except.ok.inj hst).symm
      rw [this]
      rfl
    · intro ⟨s, hs⟩
      exact absurd hs (by intro hc; cases hc)
    · intro hv
      cases hv
  | cons p rest ih =>
    by_cases hq : quietNone p
    · rw [dispatchRun_cons_quiet hq] at *
      refine ⟨ih.1, ?_, ?_⟩
      · intro he
        exact DispatchViolation.there hq (ih.2.mp he)
      · intro hv
        cases hv with
        | here hvp =>
          rcases hq with ⟨hr, hc⟩
          rcases hvp with ⟨hsome, _⟩ | ⟨_, hc2⟩
          · rw [hr] at hsome
            exact absurd hsome (by simp)
          · rw [hc] at hc2
            exact absurd hc2 (by simp)
        | there _ hv2 => exact ih.2.mpr hv2
    · rcases hr : p.ret with _ | t
      · -- returns null but is not quiet: it must have called putPrev
        have hc : p.callsPutPrev = true := by
          rcases hb : p.callsPutPrev with _ | _
          · exact absurd ⟨hr, hb⟩ hq
          · rfl
        rcases dispatchRun_cons_viol (Or.inr ⟨hr, hc⟩) rest with ⟨s, hs⟩
        refine ⟨?_, ?_, ?_⟩
        · intro st hst
          rw [hs] at hst
          exact absurd hst (by intro hcon; cases hcon)
        · intro _
          exact DispatchViolation.here (Or.inr ⟨hr, hc⟩)
        · intro _
          exact ⟨s, hs⟩
      · rcases hb : p.callsPutPrev with _ | _
        · -- returns a process without calling putPrev: fatal
          rcases dispatchRun_cons_viol (Or.inl ⟨by rw [hr]; rfl, hb⟩) rest with ⟨s, hs⟩
          refine ⟨?_, ?_, ?_⟩
          · intro st hst
            rw [hs] at hst
            exact absurd hst (by intro hcon; cases hcon)
          · intro _
            exact DispatchViolation.here (Or.inl ⟨by rw [hr]; rfl, hb⟩)
          · intro _
            exact ⟨s, hs⟩
        · -- a well-behaved winner: exactly one putPrev call, no error
          have hw := dispatchRun_cons_winner hr hb rest
          refine ⟨?_, ?_, ?_⟩
          · intro st hst
            rw [hw] at hst
            have : (⟨some t, true, 1⟩ : DispatchState) = st := Except.ok.inj hst
            rw [← this]
            rfl
          · intro ⟨s, hs⟩
            rw [hw] at hs
            exact absurd hs (by intro hcon; cases hcon)
          · intro hv
            cases hv with
            | here hvp =>
              rcases hvp with ⟨_, hc2⟩ | ⟨hnone, _⟩
              · rw [hb] at hc2
                exact absurd hc2 (by simp)
              · rw [hr] at hnone
                exact absurd hnone (by simp)
            | there hq2 _ =>
              rcases hq2 with ⟨hnone, _⟩
              rw [hr] at hnone
              exact absurd hnone (by simp)

/-- Witness for C1: a quiet FCFS-like class followed by a well-behaved winner
completes with exactly one `putPrev` call; a class that returns a process
without calling `putPrev` aborts the cycle. -/
theorem pickNext_putPrev_protocol_witness :
    dispatchRun [⟨none, false⟩, ⟨some 4, true⟩] = Except.ok ⟨some 4, true, 1⟩ ∧
    (⟨some 4, true, 1⟩ : DispatchState).putPrevCalls = 1 ∧
    DispatchViolation [⟨some 4, false⟩] := by
  refine ⟨by rfl, ?_, ?_⟩
  · exact (pickNext_putPrev_protocol [⟨none, false⟩, ⟨some 4, true⟩]).1 _ (by rfl)
  · exact (pickNext_putPrev_protocol [⟨some 4, false⟩]).2.mp ⟨_, by rfl⟩

/-- C10: `contextSwitches` is incremented on exactly those `pickNext` cycles
in which some scheduling class returned a process — never on an idle
fall-through, and also when the winner is the very process that was already
running (the increment depends only on a class returning a process, not on
its identity). -/
theorem contextSwitches_incremented_iff_picked (ps : List PolicyBeh) (cs : Nat) :
    ∀ r, pickNextContextSwitches ps cs = Except.ok r →
      ((r.2 = cs + 1 ↔ r.1.isSome = true) ∧ (r.2 = cs ↔ r.1 = none)) := by
  intro r hr
  rw [pickNextContextSwitches] at hr
  rcases hd : dispatchRun ps with s | st
  · rw [hd] at hr
    exact absurd hr (by intro hc; cases hc)
  · rw [hd] at hr
    rcases hn : st.next with _ | t
    · have : r = (none, cs) := by
        rw [Except.map] at hr
        rw [hn] at hr
        exact (Except.ok.inj hr).symm
      rw [this]
      simp
    · have : r = (some t, cs + 1) := by
        rw [Except.map] at hr
        rw [hn] at hr
        exact (Except.ok.inj hr).symm
      rw [this]
      simp

/-- Witness for C10: the winning class returns pid 7 — the same process that
was running before — and the counter still increments from 3 to 4; an
all-quiet cycle (idle pick) leaves it at 3. -/
theorem contextSwitches_incremented_iff_picked_witness :
    ((4 : Nat) = 3 + 1 ↔ (some 7 : Option Nat).isSome = true) ∧
    ((3 : Nat) = 3 ↔ (none : Option Nat) = none) := by
  refine ⟨?_, ?_⟩
  · exact ((contextSwitches_incremented_iff_picked [⟨some 7, true⟩] 3
      (some 7, 4) (by rfl)).1)
  · exact ((contextSwitches_incremented_iff_picked [⟨none, false⟩] 3
      (none, 3) (by rfl)).2)

/- ================================================================
   Part 3: Simulator.checkPreempt (claim C4).
   ================================================================ -/

/-- Outcome of `Simulator.checkPreempt(proc)`: delegate to the policy's own
`checkPreempt`, reschedule (call `Simulator.pickNext`), or do nothing. -/
inductive PreemptAction where
  | delegate : PreemptAction
  | resched : PreemptAction
  | noAction : PreemptAction
deriving DecidableEq, Repr

/-- Priority-order walk of `Simulator.checkPreempt`'s else-branch: at each
class, first test whether it is the new process's class (then reschedule),
else whether it is the current process's class (then return).  After the
`sim.pickNext()` call the loop keeps iterating, but neither branch can fire a
second time (each class appears once and the new current's class lies at or
before the reschedule position), so the walk's outcome is its first hit. -/
def checkPreemptWalk (procClass currClass : String) : List String → PreemptAction
  | [] => PreemptAction.noAction
  | c :: rest =>
    if c = procClass then PreemptAction.resched
    else if c = currClass then PreemptAction.noAction
    else checkPreemptWalk procClass currClass rest

/-- Simulator.checkPreempt: delegate to the class itself only when the new
process's class is the current one's *and* `sim.preemption` is enabled;
otherwise walk the active priority order. -/
def simCheckPreempt (prio : List String) (procClass currClass : String)
    (preemption : Bool) : PreemptAction :=
  if procClass = currClass ∧ preemption = true then PreemptAction.delegate
  else checkPreemptWalk procClass currClass prio

theorem checkPreemptWalk_resched_iff (procClass currClass : String) :
    ∀ prio : List String,
      (checkPreemptWalk procClass currClass prio = PreemptAction.resched ↔
        procClass ∈ prio ∧ prio.indexOf procClass ≤ prio.indexOf currClass) := by
  intro prio
  induction prio with
  | nil =>
    constructor
    · intro h
      exact absurd h (by rw [checkPreemptWalk]; intro hc; cases hc)
    · intro ⟨h, _⟩
      cases h
  | cons c rest ih =>
    by_cases hp : c = procClass
    · constructor
      · intro _
        refine ⟨hp ▸ List.mem_cons_self c rest, ?_⟩
        rw [hp]
        simp [List.indexOf_cons_self]
      · intro _
        rw [checkPreemptWalk, if_pos hp]
    · by_cases hc : c = currClass
      · constructor
        · intro h
          rw [checkPreemptWalk, if_neg hp, if_pos hc] at h
          cases h
        · intro ⟨hmem, hle⟩
          have hmem2 : procClass ∈ rest := by
            rcases List.mem_cons.mp hmem with h | h
            · exact absurd h.symm hp
            · exact h
          have h1 : (c :: rest).indexOf procClass = rest.indexOf procClass + 1 := by
            rw [List.indexOf_cons]
            simp [show (c == procClass) = false by simpa using hp]
          have h2 : (c :: rest).indexOf currClass = 0 := by
            rw [List.indexOf_cons]
            simp [show (c == currClass) = true by simpa using hc]
          rw [h1, h2] at hle
          omega
      · rw [checkPreemptWalk, if_neg hp, if_neg hc, ih]
        have h1 : (c :: rest).indexOf procClass = rest.indexOf procClass + 1 := by
          rw [List.indexOf_cons]
          simp [show (c == procClass) = false by simpa using hp]
        have h2 : (c :: rest).indexOf currClass = rest.indexOf currClass + 1 := by
          rw [List.indexOf_cons]
          simp [show (c == currClass) = false by simpa using hc]
        constructor
        · intro ⟨hmem, hle⟩
          refine ⟨List.mem_cons_of_mem _ hmem, ?_⟩
          rw [h1, h2]
          omega
        · intro ⟨hmem, hle⟩
          have hmem2 : procClass ∈ rest := by
            rcases List.mem_cons.mp hmem with h | h
            · exact absurd h.symm hp
            · exact h
          refine ⟨hmem2, ?_⟩
          rw [h1, h2] at hle
          omega

/-- Counterexample to C4 as stated: with `sim.preemption == false` and the new
process in the same class as the current one, the kernel does *not* delegate
to the class's own `checkPreempt` — the walk finds the class and calls
`Simulator.pickNext`, i.e. it reschedules. -/
theorem checkPreempt_not_always_delegated :
    simCheckPreempt ["FCFSClass"] "FCFSClass" "FCFSClass" false =
      PreemptAction.resched ∧
    PreemptAction.resched ≠ PreemptAction.delegate := by
  refine ⟨by rfl, ?_⟩
  intro h
  cases h

/-- C4 (amended): delegation to the policy's own `checkPreempt` happens iff
the new process's class equals the current one's and global preemption is
enabled; in every other case the kernel walks the active priority order and
reschedules iff the new class appears there no later than the current class
(for distinct classes: strictly before it), so a lower-priority class never
preempts a higher-priority current one. -/
theorem checkPreempt_priority_order (prio : List String)
    (procClass currClass : String) (preemption : Bool) :
    (procClass = currClass ∧ preemption = true →
      simCheckPreempt prio procClass currClass preemption = PreemptAction.delegate) ∧
    (¬(procClass = currClass ∧ preemption = true) →
      (simCheckPreempt prio procClass currClass preemption = PreemptAction.resched ↔
        procClass ∈ prio ∧ prio.indexOf procClass ≤ prio.indexOf currClass)) ∧
    (currClass ∈ prio → prio.indexOf currClass < prio.indexOf procClass →
      simCheckPreempt prio procClass currClass preemption ≠ PreemptAction.resched) := by
  refine ⟨?_, ?_, ?_⟩
  · intro h
    rw [simCheckPreempt]
    simp [h.1, h.2]
  · intro h
    rw [simCheckPreempt]
    simp only [h, if_false]
    exact checkPreemptWalk_resched_iff procClass currClass prio
  · intro _ hlt h
    by_cases hd : procClass = currClass ∧ preemption = true
    · rw [simCheckPreempt] at h
      simp only [hd, if_true] at h
      cases h
    · rw [simCheckPreempt] at h
      simp only [hd, if_false] at h
      rcases (checkPreemptWalk_resched_iff procClass currClass prio).mp h with ⟨_, hle⟩
      omega

/-- Witness for C4 (amended): with classes `[A, B]`, a new `A`-process
preempts a current `B`-process, a new `B`-process never preempts a current
`A`-process, and same-class with preemption enabled delegates. -/
theorem checkPreempt_priority_order_witness :
    simCheckPreempt ["A", "B"] "A" "B" true = PreemptAction.resched ∧
    simCheckPreempt ["A", "B"] "B" "A" true ≠ PreemptAction.resched ∧
    simCheckPreempt ["A", "B"] "A" "A" true = PreemptAction.delegate := by
  refine ⟨?_, ?_, ?_⟩
  · exact ((checkPreempt_priority_order ["A", "B"] "A" "B" true).2.1
      (by simp) ).mpr ⟨by simp, by simp [List.indexOf_cons]⟩
  · exact (checkPreempt_priority_order ["A", "B"] "B" "A" true).2.2
      (by simp) (by simp [List.indexOf_cons])
  · exact (checkPreempt_priority_order ["A", "B"] "A" "A" true).1 ⟨rfl, rfl⟩

/- ================================================================
   Part 4: behaviour FSM and end-event computation inside
   Simulator.pickNext (claims C5 and C6).
   ================================================================ -/

/-- A process-definition value: a plain number or an `[lo, hi]` interval
sampled at the moment of consumption. -/
inductive ProcVal where
  | num : Nat → ProcVal
  | interval : Nat → Nat → ProcVal
deriving DecidableEq, Repr

/-- Simulator.getProcVal: a number evaluates to itself; an interval `[a, b]`
evaluates to `a + floor(random * (b - a))`.  The RNG draw is passed in as the
oracle `r`, clamped to the same range `[0, b - a - 1]` the JS expression
produces (and to `0` when `b = a`). -/
def getProcVal (v : ProcVal) (r : Nat) : Nat :=
  match v with
  | ProcVal.num n => n
  | ProcVal.interval a b => a + min r (b - a - 1)

/-- One behaviour-list entry after `loadProc` resolution: switch-condition
thresholds are concrete numbers (`loadProc` samples interval conditions at
load), while `run`/`block` may still be intervals. -/
structure BehEntry where
  final : Bool
  endNicely : Bool
  run : Option ProcVal
  block : Option ProcVal
  priority : Option Int
  procExec : Option Nat
  simExec : Option Nat
  execCnt : Option Nat
deriving DecidableEq, Repr

/-- The process's `currBehavior`: its first behaviour entry carries all three
fields, onto which later entries are overlaid. -/
structure CurrBehavior where
  run : ProcVal
  block : ProcVal
  priority : Int
deriving DecidableEq, Repr

/-- Exit conditions of `ExitEvent` (the `ExitCond` enum). -/
inductive ExitCond where
  | procExec : ExitCond
  | simExec : ExitCond
  | execCnt : ExitCond
deriving DecidableEq, Repr

/-- Payload of an `ExitEvent` scheduled for a process. -/
structure ExitEv where
  time : Nat
  cond : ExitCond
  nice : Bool
deriving DecidableEq, Repr

/-- An end event linked from a process: an exit or a block. -/
inductive EndEvent where
  | exitEv : ExitEv → EndEvent
  | blockEv : Nat → EndEvent
deriving DecidableEq, Repr

/-- The process fields read and written by the behaviour-update and end-event
section of `Simulator.pickNext`. -/
structure FsmProc where
  behavior : List BehEntry
  nextBehIndex : Nat
  currBehavior : CurrBehavior
  execTime : Nat
  execCnt : Nat
  remainingRuntime : Nat
  strictEndEvent : Option ExitEv
  nextEvent : Option EndEvent
deriving DecidableEq, Repr

/-- Switch condition of a non-final behaviour entry, exactly the disjunction
in the source: `execTime >= procExec || now >= simExec || execCnt >= execCnt`,
where an undefined field contributes false. -/
def behSwitchCond (now : Nat) (p : FsmProc) (e : BehEntry) : Bool :=
  (match e.procExec with | some v => decide (v ≤ p.execTime) | none => false) ||
  (match e.simExec with | some v => decide (v ≤ now) | none => false) ||
  (match e.execCnt with | some v => decide (v ≤ p.execCnt) | none => false)

/-- Overlay the defined `run`/`block`/`priority` fields of an entry onto the
current behaviour. -/
def overlayBehavior (cb : CurrBehavior) (e : BehEntry) : CurrBehavior :=
  { run := e.run.getD cb.run
    block := e.block.getD cb.block
    priority := e.priority.getD cb.priority }

/-- The non-final behaviour-switch step of `Simulator.pickNext`: if
`nextBehIndex` is in range and points at a non-final entry whose switch
condition holds, overlay its fields and advance the index by one. -/
def behaviorUpdate (now : Nat) (p : FsmProc) : FsmProc :=
  if h : p.nextBehIndex < p.behavior.length then
    let e := p.behavior.get ⟨p.nextBehIndex, h⟩
    if e.final = false ∧ behSwitchCond now p e = true then
      { p with
          currBehavior := overlayBehavior p.currBehavior e
          nextBehIndex := p.nextBehIndex + 1 }
    else p
  else p

/-- The `execCnt`-condition arm of the final-entry chain: when
`execCnt + 1 >= threshold`, an exit is scheduled at `now + runTime`, nice or
strict as configured.  Returns (process, endEventSet, aliased). -/
def execCntCase (now rt : Nat) (e : BehEntry) (p : FsmProc) : FsmProc × Bool × Bool :=
  match e.execCnt with
  | some thr =>
    if thr ≤ p.execCnt + 1 then
      let endTime := now + rt
      if 0 < endTime then
        ({ p with nextEvent := some (EndEvent.exitEv ⟨endTime, ExitCond.execCnt, e.endNicely⟩) },
          true, false)
      else (p, false, false)
    else (p, false, false)
  | none => (p, false, false)

/-- The `simExec`-condition arm of the final-entry chain.  A nice exit is set
only if the burst reaches the threshold.  A strict exit replaces any previous
`strictEndEvent` by an exit at `simExec < now ? now : simExec`, and aliases
`nextEvent` to that same handle iff `now + runTime` reaches the threshold. -/
def simExecCase (now rt : Nat) (e : BehEntry) (p : FsmProc) : FsmProc × Bool × Bool :=
  match e.simExec with
  | some thr =>
    if e.endNicely then
      if thr ≤ now + rt then
        let endTime := now + rt
        if 0 < endTime then
          ({ p with nextEvent := some (EndEvent.exitEv ⟨endTime, ExitCond.simExec, true⟩) },
            true, false)
        else (p, false, false)
      else (p, false, false)
    else
      let strictTime := if thr < now then now else thr
      let ev : ExitEv := ⟨strictTime, ExitCond.simExec, false⟩
      let p2 := { p with strictEndEvent := some ev }
      if thr ≤ now + rt then
        ({ p2 with nextEvent := some (EndEvent.exitEv ev) }, true, true)
      else (p2, false, false)
  | none => execCntCase now rt e p

/-- The full `if / else if / else if` chain handling a final behaviour entry
in `Simulator.pickNext`, in source order: `procExec` first (taken only when
`execTime + runTime` reaches the threshold), then `simExec`, then
`execCnt`. -/
def finalEndEvent (now rt : Nat) (e : BehEntry) (p : FsmProc) : FsmProc × Bool × Bool :=
  match e.procExec with
  | some thr =>
    if thr ≤ p.execTime + rt then
      let endTime :=
        if e.endNicely then now + rt
        else if thr ≤ p.execTime then now + 1 else now + (thr - p.execTime)
      if 0 < endTime then
        ({ p with nextEvent := some (EndEvent.exitEv ⟨endTime, ExitCond.procExec, e.endNicely⟩) },
          true, false)
      else (p, false, false)
    else simExecCase now rt e p
  | none => simExecCase now rt e p

/-- The final-entry handling of `Simulator.pickNext` after the non-final
switch: when the (possibly advanced) `nextBehIndex` points at a final entry,
determine the runtime (`remainingRuntime` if positive, else a fresh
`getProcVal` of the current `run`, stored back) and run the end-event chain.
Returns (process, endEventSet, aliased). -/
def pickFinalStep (now sample : Nat) (p1 : FsmProc) : FsmProc × Bool × Bool :=
  if h : p1.nextBehIndex < p1.behavior.length then
    let e := p1.behavior.get ⟨p1.nextBehIndex, h⟩
    if e.final then
      let rt :=
        if 0 < p1.remainingRuntime then p1.remainingRuntime
        else getProcVal p1.currBehavior.run sample
      let p1b :=
        if 0 < p1.remainingRuntime then p1
        else { p1 with remainingRuntime := rt }
      finalEndEvent now rt e p1b
    else (p1, false, false)
  else (p1, false, false)

/-- The tail of `Simulator.pickNext`'s behaviour section: `execCnt++`, then —
only if no end event was set — determine the runtime the same way and link a
block event at `now + runTime`. -/
def pickEndFallback (now sample : Nat) (s : FsmProc × Bool × Bool) : FsmProc × Bool :=
  let p3 := { s.1 with execCnt := s.1.execCnt + 1 }
  if s.2.1 then (p3, s.2.2)
  else
    let rt :=
      if 0 < p3.remainingRuntime then p3.remainingRuntime
      else getProcVal p3.currBehavior.run sample
    let p4 :=
      if 0 < p3.remainingRuntime then p3
      else { p3 with remainingRuntime := rt }
    ({ p4 with nextEvent := some (EndEvent.blockEv (now + rt)) }, s.2.2)

/-- The complete behaviour-and-end-event section of `Simulator.pickNext`
applied to the picked process: the optional non-final switch, the final-entry
handling, the `execCnt++`, and the block-event fallback when no exit was set.
`sample` is the RNG draw used by `getProcVal` when a fresh runtime must be
chosen.  Returns the updated process and whether `nextEvent` was aliased to
the `strictEndEvent` handle. -/
def pickUpdateBehavior (now sample : Nat) (p0 : FsmProc) : FsmProc × Bool :=
  pickEndFallback now sample (pickFinalStep now sample (behaviorUpdate now p0))

theorem behaviorUpdate_spec (now : Nat) (p : FsmProc) :
    (behaviorUpdate now p).behavior = p.behavior ∧
    (behaviorUpdate now p).execTime = p.execTime ∧
    (behaviorUpdate now p).execCnt = p.execCnt ∧
    (behaviorUpdate now p).remainingRuntime = p.remainingRuntime ∧
    ((behaviorUpdate now p).nextBehIndex = p.nextBehIndex + 1 ↔
      ∃ h : p.nextBehIndex < p.behavior.length,
        (p.behavior.get ⟨p.nextBehIndex, h⟩).final = false ∧
        behSwitchCond now p (p.behavior.get ⟨p.nextBehIndex, h⟩) = true) ∧
    ((behaviorUpdate now p).nextBehIndex = p.nextBehIndex ∨
      (behaviorUpdate now p).nextBehIndex = p.nextBehIndex + 1) ∧
    (∀ h : p.nextBehIndex < p.behavior.length,
      (p.behavior.get ⟨p.nextBehIndex, h⟩).final = false →
      behSwitchCond now p (p.behavior.get ⟨p.nextBehIndex, h⟩) = true →
      (behaviorUpdate now p).currBehavior =
        overlayBehavior p.currBehavior (p.behavior.get ⟨p.nextBehIndex, h⟩)) ∧
    ((behaviorUpdate now p).nextBehIndex = p.nextBehIndex →
      (behaviorUpdate now p).currBehavior = p.currBehavior) := by
  rw [behaviorUpdate]
  by_cases h : p.nextBehIndex < p.behavior.length
  · rw [dif_pos h]
    by_cases hc : (p.behavior.get ⟨p.nextBehIndex, h⟩).final = false ∧
        behSwitchCond now p (p.behavior.get ⟨p.nextBehIndex, h⟩) = true
    · rw [if_pos hc]
      refine ⟨rfl, rfl, rfl, rfl, ?_, Or.inr rfl, ?_, ?_⟩
      · exact ⟨fun _ => ⟨h, hc⟩, fun _ => rfl⟩
      · intro _ _ _
        rfl
      · intro hix
        exact absurd hix (by simp)
    · rw [if_neg hc]
      refine ⟨rfl, rfl, rfl, rfl, ?_, Or.inl rfl, ?_, fun _ => rfl⟩
      · constructor
        · intro hix
          exact absurd hix (by simp)
        · intro ⟨h2, hfin, hcond⟩
          exact absurd ⟨hfin, hcond⟩ hc
      · intro h2 hfin hcond
        exact absurd ⟨hfin, hcond⟩ hc
  · rw [dif_neg h]
    refine ⟨rfl, rfl, rfl, rfl, ?_, Or.inl rfl, ?_, fun _ => rfl⟩
    · constructor
      · intro hix
        exact absurd hix (by simp)
      · intro ⟨h2, _, _⟩
        exact absurd h2 h
    · intro h2 _ _
      exact absurd h2 h

theorem finalEndEvent_behavior (now rt : Nat) (e : BehEntry) (p : FsmProc) :
    (finalEndEvent now rt e p).1.behavior = p.behavior := by
  obtain ⟨fin, nice, run, blk, prio, pe, se, ec⟩ := e
  rcases pe with _ | pthr <;> rcases se with _ | sthr <;> rcases ec with _ | ethr <;>
    simp only [finalEndEvent, simExecCase, execCntCase] <;>
    (repeat' split) <;> rfl

theorem finalEndEvent_nextBehIndex (now rt : Nat) (e : BehEntry) (p : FsmProc) :
    (finalEndEvent now rt e p).1.nextBehIndex = p.nextBehIndex := by
  obtain ⟨fin, nice, run, blk, prio, pe, se, ec⟩ := e
  rcases pe with _ | pthr <;> rcases se with _ | sthr <;> rcases ec with _ | ethr <;>
    simp only [finalEndEvent, simExecCase, execCntCase] <;>
    (repeat' split) <;> rfl

theorem finalEndEvent_currBehavior (now rt : Nat) (e : BehEntry) (p : FsmProc) :
    (finalEndEvent now rt e p).1.currBehavior = p.currBehavior := by
  obtain ⟨fin, nice, run, blk, prio, pe, se, ec⟩ := e
  rcases pe with _ | pthr <;> rcases se with _ | sthr <;> rcases ec with _ | ethr <;>
    simp only [finalEndEvent, simExecCase, execCntCase] <;>
    (repeat' split) <;> rfl

theorem pickFinalStep_def (now sample : Nat) (p1 : FsmProc) :
    pickFinalStep now sample p1 =
      if h : p1.nextBehIndex < p1.behavior.length then
        if (p1.behavior.get ⟨p1.nextBehIndex, h⟩).final then
          finalEndEvent now
            (if 0 < p1.remainingRuntime then p1.remainingRuntime
              else getProcVal p1.currBehavior.run sample)
            (p1.behavior.get ⟨p1.nextBehIndex, h⟩)
            (if 0 < p1.remainingRuntime then p1
              else { p1 with remainingRuntime :=
                if 0 < p1.remainingRuntime then p1.remainingRuntime
                else getProcVal p1.currBehavior.run sample })
        else (p1, false, false)
      else (p1, false, false) := rfl

theorem pickEndFallback_def (now sample : Nat) (s : FsmProc × Bool × Bool) :
    pickEndFallback now sample s =
      if s.2.1 then ({ s.1 with execCnt := s.1.execCnt + 1 }, s.2.2)
      else
        ({ (if 0 < ({ s.1 with execCnt := s.1.execCnt + 1 } : FsmProc).remainingRuntime
            then ({ s.1 with execCnt := s.1.execCnt + 1 } : FsmProc)
            else { ({ s.1 with execCnt := s.1.execCnt + 1 } : FsmProc) with
              remainingRuntime :=
                if 0 < ({ s.1 with execCnt := s.1.execCnt + 1 } : FsmProc).remainingRuntime
                then ({ s.1 with execCnt := s.1.execCnt + 1 } : FsmProc).remainingRuntime
                else getProcVal ({ s.1 with execCnt := s.1.execCnt + 1 } :
                  FsmProc).currBehavior.run sample }) with
          nextEvent := some (EndEvent.blockEv (now +
            (if 0 < ({ s.1 with execCnt := s.1.execCnt + 1 } : FsmProc).remainingRuntime
              then ({ s.1 with execCnt := s.1.execCnt + 1 } : FsmProc).remainingRuntime
              else getProcVal ({ s.1 with execCnt := s.1.execCnt + 1 } :
                FsmProc).currBehavior.run sample))) }, s.2.2) := rfl

theorem pickFinalStep_behavior (now sample : Nat) (p1 : FsmProc) :
    (pickFinalStep now sample p1).1.behavior = p1.behavior := by
  rw [pickFinalStep_def]
  by_cases h : p1.nextBehIndex < p1.behavior.length
  · rw [dif_pos h]
    by_cases hfin : (p1.behavior.get ⟨p1.nextBehIndex, h⟩).final = true
    · rw [if_pos hfin, finalEndEvent_behavior]
      by_cases hrem : 0 < p1.remainingRuntime
      · rw [if_pos hrem]
      · rw [if_neg hrem]
    · rw [if_neg hfin]
  · rw [dif_neg h]

theorem pickFinalStep_nextBehIndex (now sample : Nat) (p1 : FsmProc) :
    (pickFinalStep now sample p1).1.nextBehIndex = p1.nextBehIndex := by
  rw [pickFinalStep_def]
  by_cases h : p1.nextBehIndex < p1.behavior.length
  · rw [dif_pos h]
    by_cases hfin : (p1.behavior.get ⟨p1.nextBehIndex, h⟩).final = true
    · rw [if_pos hfin, finalEndEvent_nextBehIndex]
      by_cases hrem : 0 < p1.remainingRuntime
      · rw [if_pos hrem]
      · rw [if_neg hrem]
    · rw [if_neg hfin]
  · rw [dif_neg h]

theorem pickFinalStep_currBehavior (now sample : Nat) (p1 : FsmProc) :
    (pickFinalStep now sample p1).1.currBehavior = p1.currBehavior := by
  rw [pickFinalStep_def]
  by_cases h : p1.nextBehIndex < p1.behavior.length
  · rw [dif_pos h]
    by_cases hfin : (p1.behavior.get ⟨p1.nextBehIndex, h⟩).final = true
    · rw [if_pos hfin, finalEndEvent_currBehavior]
      by_cases hrem : 0 < p1.remainingRuntime
      · rw [if_pos hrem]
      · rw [if_neg hrem]
    · rw [if_neg hfin]
  · rw [dif_neg h]

theorem pickEndFallback_behavior (now sample : Nat) (s : FsmProc × Bool × Bool) :
    (pickEndFallback now sample s).1.behavior = s.1.behavior := by
  rw [pickEndFallback_def]
  by_cases hset : s.2.1 = true
  · rw [if_pos hset]
  · rw [if_neg hset]
    by_cases hrem : 0 < ({ s.1 with execCnt := s.1.execCnt + 1 } : FsmProc).remainingRuntime
    · rw [if_pos hrem]
    · rw [if_neg hrem]

theorem pickEndFallback_nextBehIndex (now sample : Nat) (s : FsmProc × Bool × Bool) :
    (pickEndFallback now sample s).1.nextBehIndex = s.1.nextBehIndex := by
  rw [pickEndFallback_def]
  by_cases hset : s.2.1 = true
  · rw [if_pos hset]
  · rw [if_neg hset]
    by_cases hrem : 0 < ({ s.1 with execCnt := s.1.execCnt + 1 } : FsmProc).remainingRuntime
    · rw [if_pos hrem]
    · rw [if_neg hrem]

theorem pickEndFallback_currBehavior (now sample : Nat) (s : FsmProc × Bool × Bool) :
    (pickEndFallback now sample s).1.currBehavior = s.1.currBehavior := by
  rw [pickEndFallback_def]
  by_cases hset : s.2.1 = true
  · rw [if_pos hset]
  · rw [if_neg hset]
    by_cases hrem : 0 < ({ s.1 with execCnt := s.1.execCnt + 1 } : FsmProc).remainingRuntime
    · rw [if_pos hrem]
    · rw [if_neg hrem]

theorem pickUpdateBehavior_nextBehIndex (now sample : Nat) (p : FsmProc) :
    (pickUpdateBehavior now sample p).1.nextBehIndex = (behaviorUpdate now p).nextBehIndex := by
  rw [pickUpdateBehavior, pickEndFallback_nextBehIndex, pickFinalStep_nextBehIndex]

theorem pickUpdateBehavior_currBehavior (now sample : Nat) (p : FsmProc) :
    (pickUpdateBehavior now sample p).1.currBehavior = (behaviorUpdate now p).currBehavior := by
  rw [pickUpdateBehavior, pickEndFallback_currBehavior, pickFinalStep_currBehavior]

/-- C5: at each pick, the behaviour FSM performs at most one non-final switch:
`nextBehIndex` advances by exactly one iff it points in range at a non-final
entry whose single switch condition holds (and then that entry's fields are
overlaid onto `currBehavior`); otherwise index and `currBehavior` are
untouched, so entries beyond the next one are never consumed in the same pick
(the final entry at the advanced index is only evaluated by the end-event
chain, which never moves the index). -/
theorem behavior_at_most_one_switch (now sample : Nat) (p : FsmProc) :
    ((pickUpdateBehavior now sample p).1.nextBehIndex = p.nextBehIndex ∨
      (pickUpdateBehavior now sample p).1.nextBehIndex = p.nextBehIndex + 1) ∧
    ((pickUpdateBehavior now sample p).1.nextBehIndex = p.nextBehIndex + 1 ↔
      ∃ h : p.nextBehIndex < p.behavior.length,
        (p.behavior.get ⟨p.nextBehIndex, h⟩).final = false ∧
        behSwitchCond now p (p.behavior.get ⟨p.nextBehIndex, h⟩) = true) ∧
    (∀ h : p.nextBehIndex < p.behavior.length,
      (p.behavior.get ⟨p.nextBehIndex, h⟩).final = false →
      behSwitchCond now p (p.behavior.get ⟨p.nextBehIndex, h⟩) = true →
      (pickUpdateBehavior now sample p).1.currBehavior =
        overlayBehavior p.currBehavior (p.behavior.get ⟨p.nextBehIndex, h⟩)) ∧
    ((pickUpdateBehavior now sample p).1.nextBehIndex = p.nextBehIndex →
      (pickUpdateBehavior now sample p).1.currBehavior = p.currBehavior) := by
  rcases behaviorUpdate_spec now p with ⟨_, _, _, _, hiff, hone, hover, hsame⟩
  rw [pickUpdateBehavior_nextBehIndex, pickUpdateBehavior_currBehavior]
  exact ⟨hone, hiff, hover, hsame⟩

/-- Witness for C5 at a concrete process: with two pending update entries
whose conditions both already hold, a pick consumes exactly the first one. -/
theorem behavior_at_most_one_switch_witness :
    (pickUpdateBehavior 50 0
      { behavior :=
          [⟨false, true, some (ProcVal.num 5), some (ProcVal.num 2), some 0, none, none, none⟩,
            ⟨false, true, some (ProcVal.num 9), none, none, none, some 10, none⟩,
            ⟨false, true, none, some (ProcVal.num 7), none, none, some 20, none⟩]
        nextBehIndex := 1
        currBehavior := ⟨ProcVal.num 5, ProcVal.num 2, 0⟩
        execTime := 30
        execCnt := 4
        remainingRuntime := 0
        strictEndEvent := none
        nextEvent := none }).1.nextBehIndex = 1 + 1 := by
  refine (behavior_at_most_one_switch 50 0 _).2.1.mpr ?_
  refine ⟨by decide, by decide, by decide⟩

/-- Runtime chosen at pick time: the carried `remainingRuntime` when positive,
otherwise a fresh `getProcVal` of the current behaviour's `run`. -/
def pickRuntime (sample : Nat) (p : FsmProc) : Nat :=
  if 0 < p.remainingRuntime then p.remainingRuntime
  else getProcVal p.currBehavior.run sample

theorem finalEndEvent_procExec_none {e : BehEntry} (hpe : e.procExec = none)
    (now rt : Nat) (p : FsmProc) :
    finalEndEvent now rt e p = simExecCase now rt e p := by
  unfold finalEndEvent
  rw [hpe]

/-- The strict-exit event value built by the `simExec`, non-nice branch:
an exit at `simExec < now ? now : simExec`. -/
def strictExitEv (now thr : Nat) : ExitEv :=
  ⟨if thr < now then now else thr, ExitCond.simExec, false⟩

theorem ite_lt_max (now thr : Nat) :
    (if thr < now then now else thr) = max now thr := by
  rcases Nat.lt_or_ge thr now with h | h
  · rw [if_pos h, Nat.max_def, if_neg (by omega)]
  · rw [if_neg (by omega), Nat.max_def, if_pos h]

theorem strictExitEv_eq (now thr : Nat) :
    strictExitEv now thr = ⟨max now thr, ExitCond.simExec, false⟩ := by
  rw [strictExitEv, ite_lt_max]

theorem simExecCase_strict {e : BehEntry} {thr : Nat} (hse : e.simExec = some thr)
    (hnice : e.endNicely = false) (now rt : Nat) (p : FsmProc) :
    simExecCase now rt e p =
      if thr ≤ now + rt then
        ({ { p with strictEndEvent := some (strictExitEv now thr) } with
            nextEvent := some (EndEvent.exitEv (strictExitEv now thr)) }, true, true)
      else
        ({ p with strictEndEvent := some (strictExitEv now thr) }, false, false) := by
  unfold simExecCase
  rw [hse, hnice]
  rfl


theorem pickEndFallback_true_res (now sample : Nat) (pp : FsmProc) (al : Bool) :
    pickEndFallback now sample (pp, true, al) =
      ({ pp with execCnt := pp.execCnt + 1 }, al) := rfl

theorem pickEndFallback_false_strict (now sample : Nat) (pp : FsmProc) (al : Bool) :
    (pickEndFallback now sample (pp, false, al)).1.strictEndEvent = pp.strictEndEvent := by
  rw [pickEndFallback_def]
  rw [if_neg (by simp)]
  by_cases h3 : 0 < pp.remainingRuntime
  · rw [if_pos h3]
  · rw [if_neg h3]

theorem pickEndFallback_false_snd (now sample : Nat) (pp : FsmProc) (al : Bool) :
    (pickEndFallback now sample (pp, false, al)).2 = al := by
  rw [pickEndFallback_def]
  rw [if_neg (by simp)]

theorem pickEndFallback_false_nextEv (now sample : Nat) (pp : FsmProc) (al : Bool) :
    (pickEndFallback now sample (pp, false, al)).1.nextEvent =
      some (EndEvent.blockEv (now +
        (if 0 < pp.remainingRuntime then pp.remainingRuntime
          else getProcVal pp.currBehavior.run sample))) := by
  rw [pickEndFallback_def]
  rw [if_neg (by simp)]

/-- C6: when at pick time the next behaviour entry is final with a `simExec`
condition and `endNicely = false`, an exit event at `max(now, threshold)` is
stored in `strictEndEvent` unconditionally, and `nextEvent` is aliased to that
same event iff `now` plus the chosen runtime reaches the threshold; otherwise
a normal block event at `now + runtime` is still scheduled for the burst. -/
theorem strict_simExec_exit (now sample thr : Nat) (p : FsmProc)
    (h : (behaviorUpdate now p).nextBehIndex < (behaviorUpdate now p).behavior.length)
    (hfin : ((behaviorUpdate now p).behavior.get
      ⟨(behaviorUpdate now p).nextBehIndex, h⟩).final = true)
    (hpe : ((behaviorUpdate now p).behavior.get
      ⟨(behaviorUpdate now p).nextBehIndex, h⟩).procExec = none)
    (hse : ((behaviorUpdate now p).behavior.get
      ⟨(behaviorUpdate now p).nextBehIndex, h⟩).simExec = some thr)
    (hnice : ((behaviorUpdate now p).behavior.get
      ⟨(behaviorUpdate now p).nextBehIndex, h⟩).endNicely = false) :
    ((pickUpdateBehavior now sample p).1.strictEndEvent =
      some ⟨max now thr, ExitCond.simExec, false⟩) ∧
    ((pickUpdateBehavior now sample p).2 = true ↔
      thr ≤ now + pickRuntime sample (behaviorUpdate now p)) ∧
    ((pickUpdateBehavior now sample p).2 = true →
      (pickUpdateBehavior now sample p).1.nextEvent =
        some (EndEvent.exitEv ⟨max now thr, ExitCond.simExec, false⟩)) ∧
    ((pickUpdateBehavior now sample p).2 = false →
      (pickUpdateBehavior now sample p).1.nextEvent =
        some (EndEvent.blockEv (now + pickRuntime sample (behaviorUpdate now p)))) := by
  have hrt : pickRuntime sample (behaviorUpdate now p) =
      (if 0 < (behaviorUpdate now p).remainingRuntime
        then (behaviorUpdate now p).remainingRuntime
        else getProcVal (behaviorUpdate now p).currBehavior.run sample) := rfl
  have hstep : pickFinalStep now sample (behaviorUpdate now p) =
      simExecCase now (pickRuntime sample (behaviorUpdate now p))
        ((behaviorUpdate now p).behavior.get ⟨(behaviorUpdate now p).nextBehIndex, h⟩)
        (if 0 < (behaviorUpdate now p).remainingRuntime
          then behaviorUpdate now p
          else { behaviorUpdate now p with
            remainingRuntime := pickRuntime sample (behaviorUpdate now p) }) := by
    rw [pickFinalStep_def, dif_pos h, if_pos hfin, finalEndEvent_procExec_none hpe, hrt]
  set p1b := (if 0 < (behaviorUpdate now p).remainingRuntime
    then behaviorUpdate now p
    else { behaviorUpdate now p with
      remainingRuntime := pickRuntime sample (behaviorUpdate now p) }) with hp1b
  have hrem1 : p1b.remainingRuntime = pickRuntime sample (behaviorUpdate now p) := by
    rw [hp1b]
    by_cases hq : 0 < (behaviorUpdate now p).remainingRuntime
    · rw [if_pos hq, hrt, if_pos hq]
    · rw [if_neg hq]
  have hcurr1 : p1b.currBehavior = (behaviorUpdate now p).currBehavior := by
    rw [hp1b]
    by_cases hq : 0 < (behaviorUpdate now p).remainingRuntime
    · rw [if_pos hq]
    · rw [if_neg hq]
  have hmain : pickUpdateBehavior now sample p =
      pickEndFallback now sample
        (if thr ≤ now + pickRuntime sample (behaviorUpdate now p) then
          ({ { p1b with strictEndEvent := some (strictExitEv now thr) } with
              nextEvent := some (EndEvent.exitEv (strictExitEv now thr)) }, true, true)
        else ({ p1b with strictEndEvent := some (strictExitEv now thr) }, false, false)) := by
    rw [pickUpdateBehavior, hstep, simExecCase_strict hse hnice]
  by_cases hcond : thr ≤ now + pickRuntime sample (behaviorUpdate now p)
  · rw [hmain, if_pos hcond, pickEndFallback_true_res]
    refine ⟨?_, ?_, ?_, ?_⟩
    · rw [strictExitEv_eq]
    · exact ⟨fun _ => hcond, fun _ => rfl⟩
    · intro _
      rw [strictExitEv_eq]
    · intro hfalse
      exact absurd hfalse (by simp)
  · rw [hmain, if_neg hcond]
    refine ⟨?_, ?_, ?_, ?_⟩
    · rw [pickEndFallback_false_strict, strictExitEv_eq]
    · rw [pickEndFallback_false_snd]
      exact ⟨fun hf => absurd hf (by simp), fun hc => absurd hc hcond⟩
    · intro hf
      rw [pickEndFallback_false_snd] at hf
      exact absurd hf (by simp)
    · intro _
      rw [pickEndFallback_false_nextEv]
      have hkey : (if 0 < ({ p1b with
            strictEndEvent := some (strictExitEv now thr) } : FsmProc).remainingRuntime
          then ({ p1b with
            strictEndEvent := some (strictExitEv now thr) } : FsmProc).remainingRuntime
          else getProcVal ({ p1b with
            strictEndEvent := some (strictExitEv now thr) } : FsmProc).currBehavior.run sample) =
          pickRuntime sample (behaviorUpdate now p) := by
        have hr : ({ p1b with strictEndEvent := some (strictExitEv now thr) } :
            FsmProc).remainingRuntime = pickRuntime sample (behaviorUpdate now p) := hrem1
        have hc : ({ p1b with strictEndEvent := some (strictExitEv now thr) } :
            FsmProc).currBehavior = (behaviorUpdate now p).currBehavior := hcurr1
        rw [hr, hc]
        by_cases h0 : 0 < pickRuntime sample (behaviorUpdate now p)
        · rw [if_pos h0]
        · rw [if_neg h0, hrt]
          by_cases hq : 0 < (behaviorUpdate now p).remainingRuntime
          · exact absurd (by rw [hrt, if_pos hq]; exact hq) h0
          · rw [if_neg hq]
      rw [hkey]

/-- Witness for C6 at a concrete process: a final `simExec = 100`, non-nice
entry at `now = 10` with 5 ns of carried runtime places the strict exit at
time 100 but still schedules a normal block at 15, with no aliasing. -/
theorem strict_simExec_exit_witness :
    (pickUpdateBehavior 10 0
      { behavior :=
          [⟨false, true, some (ProcVal.num 5), some (ProcVal.num 2), some 0, none, none, none⟩,
            ⟨true, false, none, none, none, none, some 100, none⟩]
        nextBehIndex := 1
        currBehavior := ⟨ProcVal.num 5, ProcVal.num 2, 0⟩
        execTime := 0
        execCnt := 0
        remainingRuntime := 5
        strictEndEvent := none
        nextEvent := none }).1.strictEndEvent =
      some ⟨100, ExitCond.simExec, false⟩ ∧
    (pickUpdateBehavior 10 0
      { behavior :=
          [⟨false, true, some (ProcVal.num 5), some (ProcVal.num 2), some 0, none, none, none⟩,
            ⟨true, false, none, none, none, none, some 100, none⟩]
        nextBehIndex := 1
        currBehavior := ⟨ProcVal.num 5, ProcVal.num 2, 0⟩
        execTime := 0
        execCnt := 0
        remainingRuntime := 5
        strictEndEvent := none
        nextEvent := none }).1.nextEvent = some (EndEvent.blockEv 15) := by
  have h : (behaviorUpdate 10
      { behavior :=
          [⟨false, true, some (ProcVal.num 5), some (ProcVal.num 2), some 0, none, none, none⟩,
            ⟨true, false, none, none, none, none, some 100, none⟩]
        nextBehIndex := 1
        currBehavior := ⟨ProcVal.num 5, ProcVal.num 2, 0⟩
        execTime := 0
        execCnt := 0
        remainingRuntime := 5
        strictEndEvent := none
        nextEvent := none }).nextBehIndex <
      (behaviorUpdate 10
      { behavior :=
          [⟨false, true, some (ProcVal.num 5), some (ProcVal.num 2), some 0, none, none, none⟩,
            ⟨true, false, none, none, none, none, some 100, none⟩]
        nextBehIndex := 1
        currBehavior := ⟨ProcVal.num 5, ProcVal.num 2, 0⟩
        execTime := 0
        execCnt := 0
        remainingRuntime := 5
        strictEndEvent := none
        nextEvent := none }).behavior.length := by decide
  have hth := strict_simExec_exit 10 0 100 _ h (by rfl) (by rfl) (by rfl) (by rfl)
  exact ⟨hth.1, hth.2.2.2 (by rfl)⟩

/- ================================================================
   Part 5: Simulator.loadProc configuration validation (claim C9).
   ================================================================ -/

/-- A raw behaviour-list entry as loadProc reads it, before normalisation
(time-suffix parsing, handled by component 1, is assumed already applied). -/
structure RawBehEntry where
  final : Bool
  endNicely : Option Bool
  run : Option ProcVal
  block : Option ProcVal
  priority : Option ProcVal
  procExec : Option ProcVal
  simExec : Option ProcVal
  execCnt : Option ProcVal
deriving DecidableEq, Repr

/-- A task spec as loadProc reads it. -/
structure ProcDef where
  pname : Option String
  policy : Option String
  spawn : Option ProcVal
  behavior : List RawBehEntry
deriving DecidableEq, Repr

/-- loadProc.checkFields: count the valid fields of `priority`/`run`/`block`;
a negative code (−1/−2/−3) flags the first invalid one.  `run` and `block`
must be at least 1 (or an interval `[a, b]` with `1 ≤ a ≤ b`); `priority` has
no range restriction beyond interval ordering. -/
def checkFields (e : RawBehEntry) : Int :=
  match e.priority with
  | some (ProcVal.interval a b) =>
    if b < a then -1 else checkFieldsRun e 1
  | some (ProcVal.num _) => checkFieldsRun e 1
  | none => checkFieldsRun e 0
where
  checkFieldsRun (e : RawBehEntry) (acc : Int) : Int :=
    match e.run with
    | some (ProcVal.num n) => if n < 1 then -2 else checkFieldsBlock e (acc + 1)
    | some (ProcVal.interval a b) =>
      if b < a ∨ a < 1 then -2 else checkFieldsBlock e (acc + 1)
    | none => checkFieldsBlock e acc
  checkFieldsBlock (e : RawBehEntry) (acc : Int) : Int :=
    match e.block with
    | some (ProcVal.num n) => if n < 1 then -3 else acc + 1
    | some (ProcVal.interval a b) => if b < a ∨ a < 1 then -3 else acc + 1
    | none => acc

/-- loadProc.execCondValid: a switch-condition value is a number at least 1 or
an interval `[lo, hi]` with `0 ≤ lo ≤ hi`. -/
def execCondValid : ProcVal → Bool
  | ProcVal.num n => decide (1 ≤ n)
  | ProcVal.interval a b => decide (a ≤ b)

/-- Per-entry condition count of loadProc (ids 1, 2, 4 summed); a valid
non-first entry carries exactly one condition (sum 1, 2 or 4). -/
def condSum (e : RawBehEntry) : Nat :=
  (match e.procExec with | some _ => 1 | none => 0) +
  (match e.simExec with | some _ => 2 | none => 0) +
  (match e.execCnt with | some _ => 4 | none => 0)

/-- Validation of one task spec, following the first loop of loadProc: policy
present (or a simulation-wide default set) and registered, `spawn` defined and
a valid value or interval, behaviour list non-empty with a complete first
entry, and each subsequent entry either final or carrying at least one update
field, plus exactly one valid switch condition. -/
def checkProcDef (defaultSet : Bool) (registered : List String) (d : ProcDef) :
    Except String Unit := do
  match d.policy with
  | none => if defaultSet then pure () else Except.error "missing policy definition."
  | some pol =>
    if registered.contains pol then pure ()
    else Except.error "given policy does not exist."
  match d.spawn with
  | none => Except.error "spawn value must be defined."
  | some (ProcVal.num _) => pure ()
  | some (ProcVal.interval a b) =>
    if b < a then Except.error "invalid spawn range." else pure ()
  match d.behavior with
  | [] => Except.error "missing or invalid behavior list."
  | first :: rest =>
    if checkFields first < 3 then
      Except.error "the first behavior entry is incomplete or invalid."
    else
      rest.foldlM
        (fun _ e =>
          if e.final = false ∧ checkFields e ≤ 0 then
            Except.error "behavior entry contains no valid behavior update fields."
          else if ((match e.procExec with | some v => !execCondValid v | none => false) ||
              (match e.simExec with | some v => !execCondValid v | none => false) ||
              (match e.execCnt with | some v => !execCondValid v | none => false)) = true then
            Except.error "behavior entry contains an invalid parse condition."
          else if condSum e = 0 then
            Except.error "behavior entry contains no parse conditions."
          else if condSum e = 3 ∨ 4 < condSum e then
            Except.error "behavior entry contains more than one parse condition."
          else pure ())
        ()

/-- Simulator.loadProc (validation outcome): an undefined, non-object or
shorter-than-one process list is rejected outright; otherwise every process
spec is checked in order. -/
def loadProc (defaultSet : Bool) (registered : List String)
    (procListDef : List ProcDef) : Except String Unit :=
  if procListDef.length < 1 then
    Except.error "missing or invalid process list passed to loadProc."
  else
    procListDef.foldlM (fun _ d => checkProcDef defaultSet registered d) ()

/-- Counterexample to C9 as stated: a configuration with zero tasks is *not*
accepted — loadProc rejects the empty process list as a fatal configuration
error before any event is scheduled, so no idle run ever happens. -/
theorem loadProc_rejects_empty :
    loadProc true ["FCFSClass"] [] =
      Except.error "missing or invalid process list passed to loadProc." := rfl

/-- C9 (amended): a configuration with zero tasks is rejected at load:
`loadProc` treats an empty process list as a fatal configuration error (in
line with the schema's non-empty `processes` requirement), so the engine
refuses to start instead of idling for `sim_len`. -/
theorem loadProc_requires_nonempty (defaultSet : Bool) (registered : List String)
    (procListDef : List ProcDef) (hlen : procListDef.length = 0) :
    loadProc defaultSet registered procListDef =
      Except.error "missing or invalid process list passed to loadProc." := by
  rw [loadProc, if_pos (by omega)]

/-- Witness for C9 (amended) at the concrete empty configuration. -/
theorem loadProc_requires_nonempty_witness :
    loadProc false [] [] =
      Except.error "missing or invalid process list passed to loadProc." :=
  loadProc_requires_nonempty false [] [] rfl

/- ================================================================
   Part 6: class counters across the exit path (claim C3).
   ================================================================ -/

/-- Kernel-owned state booleans of a process. -/
structure KProc where
  alive : Bool
  runnable : Bool
  onRq : Bool
  waiting : Bool
deriving DecidableEq, Repr

/-- The per-class running counters `nrRunning` / `nrWaiting`. -/
structure KClass where
  nrRunning : Nat
  nrWaiting : Nat
deriving DecidableEq, Repr

/-- Fork/Enqueue handling of Simulator.run for the event's process: mark it
alive, runnable and waiting, increment both class counters, then the class
`enqueue` puts it on the runqueue (`onRq := true` in `SchedClass.enqueue`). -/
def forkEnqueueCounters (p : KProc) (c : KClass) : KProc × KClass :=
  ({ p with alive := true, runnable := true, waiting := true, onRq := true },
    { c with nrWaiting := c.nrWaiting + 1, nrRunning := c.nrRunning + 1 })

/-- Winner bookkeeping of Simulator.pickNext for the picked process: when it
was waiting, log its latency, clear `waiting` and decrement `nrWaiting`
(`nrRunning` stays: the process keeps running).  The FCFS class leaves the
picked process on its runqueue, so `onRq` is untouched. -/
def pickWinnerCounters (p : KProc) (c : KClass) : KProc × KClass :=
  if p.waiting then
    ({ p with waiting := false }, { c with nrWaiting := c.nrWaiting - 1 })
  else (p, c)

/-- Simulator.handleExit's effect on the process state and its class's
counters: mark dead and not runnable, dequeue if on a runqueue; then — only
when the process is *not* the currently executing one and is waiting — log
latency and decrement both `nrWaiting` and `nrRunning`.  The `proc === curr`
branch updates execution time only: neither counter changes. -/
def handleExitCounters (p : KProc) (isCurr : Bool) (c : KClass) : KProc × KClass :=
  let p1 := { p with runnable := false, alive := false }
  let p2 := if p1.onRq then { p1 with onRq := false } else p1
  if isCurr then (p2, c)
  else if p2.waiting then
    ({ p2 with waiting := false },
      { c with nrWaiting := c.nrWaiting - 1, nrRunning := c.nrRunning - 1 })
  else (p2, c)

/-- The invariant claimed for every policy at event-loop boundaries:
`nrRunning` equals the number of the policy's tasks that are alive and
runnable. -/
def nrRunningInvariant (procs : List KProc) (c : KClass) : Prop :=
  c.nrRunning = (procs.filter (fun p => p.alive && p.runnable)).length

/-- C3 fails on the code (code bug): run one task through Fork, pick, and an
Exit while it is the current task.  The invariant holds at the two boundaries
before the exit, but `handleExit` takes the `proc === curr` branch, which
never decrements `nrRunning`, so after the exit the class still counts one
running task while none is alive — the code contradicts both the documented
counter semantics and the claimed invariant. -/
theorem handleExit_current_keeps_nrRunning :
    (let st0 := forkEnqueueCounters ⟨false, false, false, false⟩ ⟨0, 0⟩
     let st1 := pickWinnerCounters st0.1 st0.2
     let st2 := handleExitCounters st1.1 true st1.2
     nrRunningInvariant [st0.1] st0.2 ∧
     nrRunningInvariant [st1.1] st1.2 ∧
     st2.2.nrRunning = 1 ∧
     (st2.1.alive = false ∧ st2.1.runnable = false) ∧
     ¬ nrRunningInvariant [st2.1] st2.2 ∧
     st2.2.nrRunning ≠ st1.2.nrRunning - 1) := by
  refine ⟨rfl, rfl, rfl, ⟨rfl, rfl⟩, ?_, by decide⟩
  intro hinv
  simp only [nrRunningInvariant] at hinv
  exact absurd hinv (by decide)

/- ================================================================
   Part 7: LinuxFairClass, the CFS-like fair policy (claims C7, C8).
   Times and vruntimes are embedded as rationals: JS numbers carry the
   same algebra here (comparisons, max/clamp) without rounding; every
   order-theoretic statement below is exact under it.
   ================================================================ -/

/-- Process fields the fair class reads and writes.  `load` is read by
`schedSlice` for an off-runqueue non-current process but is never initialised
anywhere in the engine; it is kept as an unconstrained field, so every theorem
below holds for each possible value. -/
structure FairProc where
  pid : Nat
  alive : Bool
  runnable : Bool
  onRq : Bool
  isFair : Bool
  priority : Int
  vruntime : ℚ
  updated : ℚ
  picked : ℚ
  execTime : ℚ
  prevSumExecRuntime : ℚ
  enqueueWakeup : Bool
  load : ℚ
deriving DecidableEq, Repr

/-- A value of the fair runqueue tree: a single process or a same-vruntime
bucket. -/
inductive FairHolder where
  | single : FairProc → FairHolder
  | bucket : List FairProc → FairHolder
deriving DecidableEq, Repr

/-- The red-black tree keyed by vruntime, modelled — like the event queue —
by its ordered-map contract as a key-sorted association list. -/
abbrev FairRq := List (ℚ × FairHolder)

/-- State of the LinuxFairClass object (class parameters and runqueue
bookkeeping).  `classVruntime` is the class's own `this.vruntime` field,
written in `enqueue` for a brand-new task and never read. -/
structure FairState where
  runqueue : FairRq
  enqueued : Int
  load : ℚ
  minVruntime : ℚ
  curr : Option FairProc
  nrRunning : Nat
  timeScale : ℚ
  minGranularity : ℚ
  schedLatency : ℚ
  schedWakeupGranularity : ℚ
  schedMinGranularity : ℚ
  schedNrLatency : Int
  startDebit : Bool
  classVruntime : ℚ
deriving DecidableEq, Repr

/-- The 40-entry nice-to-weight table borrowed from the kernel's core.c. -/
def schedPrioToWeight : List ℚ :=
  [88761, 71755, 56483, 46273, 36291,
   29154, 23254, 18705, 14949, 11916,
    9548,  7620,  6100,  4904,  3906,
    3121,  2501,  1991,  1586,  1277,
    1024,   820,   655,   526,   423,
     335,   272,   215,   172,   137,
     110,    87,    70,    56,    45,
      36,    29,    23,    18,    15]

/-- LinuxFairClass.getLoad: the weight for a nice value, fatal outside
`[-20, 19]`. -/
def getLoad (prio : Int) : Except String ℚ :=
  if prio < -20 ∨ 19 < prio then
    Except.error "Invalid priority detected, expected a number on the interval from -20 to 19."
  else
    Except.ok (schedPrioToWeight.getD (prio + 20).toNat 0)

/-- LinuxFairClass.calcDelta. -/
def calcDelta (deltaExec weight loadWeight : ℚ) : ℚ :=
  deltaExec * weight / loadWeight

/-- LinuxFairClass.calcDeltaFair: virtual time passes more slowly for
higher-priority processes; identity at nice 0. -/
def calcDeltaFair (delta : ℚ) (p : FairProc) : Except String ℚ :=
  if p.priority = 0 then Except.ok delta
  else do
    let w0 ← getLoad 0
    let wp ← getLoad p.priority
    Except.ok (calcDelta delta w0 wp)

/-- Value at the leftmost node of the fair runqueue (`this.runqueue.leftmost()`
followed by the Process/Array/ error discrimination). -/
def fairLeftmost (rq : FairRq) : Except String FairProc :=
  match rq with
  | [] => Except.error "the runqueue is empty or has an invalid value stored in it."
  | (_, FairHolder.single p) :: _ => Except.ok p
  | (_, FairHolder.bucket []) :: _ =>
    Except.error "the runqueue is empty or has an invalid value stored in it."
  | (_, FairHolder.bucket (p :: _)) :: _ => Except.ok p

/-- LinuxFairClass.updateMinVruntime: candidate from the (runnable) current
process and the tree minimum, clamped so `minVruntime` never decreases. -/
def updateMinVruntime (st : FairState) (p : FairProc) : Except String FairState :=
  let vr1 := if p.runnable then p.vruntime else st.minVruntime
  if 0 < st.enqueued then do
    let leftmost ← fairLeftmost st.runqueue
    let vr2 :=
      if p.runnable then
        (if leftmost.vruntime < vr1 then leftmost.vruntime else vr1)
      else leftmost.vruntime
    Except.ok { st with minVruntime :=
      if vr2 < st.minVruntime then st.minVruntime else vr2 }
  else
    Except.ok { st with minVruntime :=
      if vr1 < st.minVruntime then st.minVruntime else vr1 }

/-- LinuxFairClass.updateCurr: account the elapsed execution of the current
process into its vruntime (when it belongs to the fair class and time moved),
then refresh `minVruntime`. -/
def updateCurr (st : FairState) (now : ℚ) (p : FairProc) :
    Except String (FairState × FairProc) :=
  if p.isFair = false then Except.ok (st, p)
  else
    if now - p.updated ≤ 0 then Except.ok (st, p)
    else do
      let dv ← calcDeltaFair (now - p.updated) p
      let p1 := { p with updated := now, vruntime := p.vruntime + dv }
      let st1 ← updateMinVruntime st p1
      Except.ok (st1, p1)

/-- LinuxFairClass.schedPeriod: the latency period, stretched when more
processes are enqueued than fit. -/
def schedPeriod (st : FairState) (processCount : Int) : ℚ :=
  if st.schedNrLatency < processCount then (processCount : ℚ) * st.minGranularity
  else st.schedLatency

/-- LinuxFairClass.schedSlice: the wall-time slice of a process, its weight's
share of the period over the runqueue load (current's load counted even while
it is off the runqueue). -/
def schedSlice (st : FairState) (p : FairProc) : Except String ℚ := do
  let slice := schedPeriod st (if p.onRq then st.enqueued else st.enqueued + 1)
  let notCurr : Bool := match st.curr with | some c => c.pid != p.pid | none => true
  let load := if p.onRq = false ∧ notCurr = true then st.load + p.load else st.load
  let wp ← getLoad p.priority
  Except.ok (calcDelta slice wp load)

/-- LinuxFairClass.schedVslice: the slice rescaled to virtual time. -/
def schedVslice (st : FairState) (p : FairProc) : Except String ℚ := do
  let s ← schedSlice st p
  calcDeltaFair s p

/-- LinuxFairClass.placeEntity: place a new or waking process relative to
`minVruntime` — optionally deferred by one vslice for a new task
(`startDebit`), granted half a latency period back for a waking one (gentle
sleepers) — clamped so the process never gains time by being re-placed. -/
def placeEntity (st : FairState) (p : FairProc) (initial : Bool) :
    Except String FairProc := do
  let vr1 ←
    if initial ∧ st.startDebit then do
      let vs ← schedVslice st p
      Except.ok (st.minVruntime + vs)
    else Except.ok st.minVruntime
  let vr2 := if initial = false then vr1 - st.schedLatency / 2 else vr1
  Except.ok { p with vruntime := if p.vruntime < vr2 then vr2 else p.vruntime }

/-- Ordered-map getDelete on the fair runqueue. -/
def fairGetDelete (k : ℚ) : FairRq → Option FairHolder × FairRq
  | [] => (none, [])
  | (k0, v0) :: rest =>
    if k = k0 then (some v0, rest)
    else
      let r := fairGetDelete k rest
      (r.1, (k0, v0) :: r.2)

/-- Ordered-map insert on the fair runqueue (overwrite on equal key, as in
the red-black tree). -/
def fairInsert (k : ℚ) (v : FairHolder) : FairRq → FairRq
  | [] => [(k, v)]
  | (k0, v0) :: rest =>
    if k < k0 then (k, v) :: (k0, v0) :: rest
    else if k = k0 then (k, v) :: rest
    else (k0, v0) :: fairInsert k v rest

/-- LinuxFairClass.enqueueEntity: insert at the process's vruntime with
bucketing on collision. -/
def enqueueEntity (st : FairState) (p : FairProc) : FairState :=
  let r := fairGetDelete p.vruntime st.runqueue
  let holder : FairHolder :=
    match r.1 with
    | some (FairHolder.single q) => FairHolder.bucket [q, p]
    | some (FairHolder.bucket qs) => FairHolder.bucket (qs ++ [p])
    | none => FairHolder.single p
  { st with runqueue := fairInsert p.vruntime holder r.2 }

/-- LinuxFairClass.dequeueEntity: remove the process from the tree at its
vruntime key, unbucketing as needed (identity compared by pid). -/
def dequeueEntity (st : FairState) (p : FairProc) : Except String FairState :=
  let r := fairGetDelete p.vruntime st.runqueue
  match r.1 with
  | some (FairHolder.single _) => Except.ok { st with runqueue := r.2 }
  | some (FairHolder.bucket qs) =>
    match qs with
    | [] => Except.error "the process was not found at the time it should be at."
    | [_] => Except.ok { st with runqueue := r.2 }
    | [q1, q2] =>
      if q1.pid = p.pid then
        Except.ok { st with runqueue := fairInsert q2.vruntime (FairHolder.single q2) r.2 }
      else if q2.pid = p.pid then
        Except.ok { st with runqueue := fairInsert q1.vruntime (FairHolder.single q1) r.2 }
      else Except.error "the process was not found at the time it should be at."
    | q1 :: q2 :: q3 :: rest =>
      match (q1 :: q2 :: q3 :: rest).filter (fun q => q.pid ≠ p.pid) with
      | [] => Except.error "the process was not found at the time it should be at."
      | qh :: qt =>
        if ((q1 :: q2 :: q3 :: rest).filter (fun q => q.pid = p.pid)).isEmpty then
          Except.error "the process was not found at the time it should be at."
        else
          Except.ok { st with runqueue := fairInsert qh.vruntime (FairHolder.bucket (qh :: qt)) r.2 }
  | none => Except.error "the process was not found at the time it should be at."

/-- LinuxFairClass.enqueue: the SchedClass preconditions, the transient
`onRq := false` toggle, stats update of the current process (`simCurr` is
`Simulator.getCurr()`), load/enqueued accounting, placement of brand-new
(`vruntime == 0`) or just-woken processes, and the tree insert.  Returns the
class state, the enqueued process and the (possibly updated) current
process. -/
def fairEnqueue (st : FairState) (now : ℚ) (simCurr p : FairProc) :
    Except String (FairState × FairProc × FairProc) :=
  if p.alive = false then Except.error "attempting to enqueue a dead process."
  else if p.onRq = true then
    Except.error "attempting to enqueue a process that is already on the runqueue."
  else do
    let p1 := { p with onRq := false }
    let (st1, curr1) ← updateCurr st now simCurr
    let lp ← getLoad p1.priority
    let st2 := { st1 with load := st1.load + lp, enqueued := st1.enqueued + 1 }
    let (st3, p2) ←
      if p1.vruntime = 0 then do
        let st2b := if curr1.isFair then { st2 with classVruntime := curr1.vruntime } else st2
        let p2 ← placeEntity st2b p1 true
        Except.ok (st2b, p2)
      else if p1.enqueueWakeup then do
        let p2 ← placeEntity st2 p1 false
        Except.ok (st2, { p2 with enqueueWakeup := false })
      else Except.ok (st2, p1)
    let st4 := enqueueEntity st3 p2
    Except.ok (st4, { p2 with onRq := true }, curr1)

/-- LinuxFairClass.dequeue: SchedClass precondition, transient `onRq := true`
toggle, stats update, tree removal, load/enqueued accounting and the
`enqueueWakeup` mark for a process that went to sleep. -/
def fairDequeue (st : FairState) (now : ℚ) (simCurr p : FairProc) :
    Except String (FairState × FairProc × FairProc) :=
  if p.onRq = false then
    Except.error "attempting to dequeue a process that is not on the runqueue."
  else do
    let p1 := { p with onRq := true }
    let (st1, curr1) ← updateCurr st now simCurr
    let st2 ← dequeueEntity st1 p1
    let p2 := { p1 with onRq := false }
    let lp ← getLoad p2.priority
    let st3 := { st2 with load := st2.load - lp, enqueued := st2.enqueued - 1 }
    let p3 := if p2.runnable = false then { p2 with enqueueWakeup := true } else p2
    Except.ok (st3, p3, curr1)

/-- LinuxFairClass.putPrev: update the descheduled process's stats and return
a still-runnable one to the tree. -/
def fairPutPrev (st : FairState) (now : ℚ) (prev : FairProc) :
    Except String (FairState × FairProc) := do
  let (st1, prev1) ← updateCurr st now prev
  if prev1.runnable then
    let st2 := enqueueEntity st1 prev1
    Except.ok ({ st2 with enqueued := st2.enqueued + 1, curr := none },
      { prev1 with onRq := true })
  else
    Except.ok ({ st1 with curr := none }, prev1)

/-- Simulator.putPrev as seen from the fair state: dispatches to the *prev*
process's class, so it only touches the fair state when prev is fair. -/
def simPutPrev (st : FairState) (now : ℚ) (prev : FairProc) :
    Except String (FairState × FairProc) :=
  if prev.isFair then fairPutPrev st now prev else Except.ok (st, prev)

/-- LinuxFairClass.pickNext: on an empty tree return null (nothing runnable)
or keep running a still-runnable fair prev; otherwise put prev back and pick
the leftmost process, dequeue it and make it the class current. -/
def fairPickNext (st : FairState) (now : ℚ) (prev : FairProc) :
    Except String (FairState × Option FairProc × FairProc) := do
  if st.enqueued = 0 ∧ st.nrRunning = 0 then Except.ok (st, none, prev)
  else if st.enqueued = 0 ∧ prev.isFair = true ∧ prev.runnable = true then do
    let (st1, prev1) ← simPutPrev st now prev
    Except.ok (st1, some prev1, prev1)
  else do
    let (st1, prev1) ← simPutPrev st now prev
    let picked ← fairLeftmost st1.runqueue
    let st2 ← dequeueEntity st1 picked
    let picked1 :=
      { picked with onRq := false, updated := now, prevSumExecRuntime := picked.execTime }
    Except.ok ({ st2 with enqueued := st2.enqueued - 1, curr := some picked1 },
      some picked1, prev1)

/-- LinuxFairClass.checkPreempt: update the current process and request a
reschedule when its vruntime leads the new process's by more than the scaled
wakeup granularity.  The Boolean reports the `Simulator.pickNext()` request;
the kernel-side dispatch is Part 2's model. -/
def fairCheckPreempt (st : FairState) (now : ℚ) (simCurr p : FairProc) :
    Except String (FairState × FairProc × Bool) := do
  let (st1, curr1) ← updateCurr st now simCurr
  let gran ← calcDeltaFair st1.schedWakeupGranularity p
  Except.ok (st1, curr1, decide (gran < curr1.vruntime - p.vruntime))

/-- LinuxFairClass.taskTick: update the current process; request a reschedule
when its slice is exhausted or the leftmost process trails it by more than the
ideal runtime (past the minimal granularity). -/
def fairTaskTick (st : FairState) (now : ℚ) (simCurr : FairProc) :
    Except String (FairState × FairProc × Bool) := do
  let (st1, curr1) ← updateCurr st now simCurr
  if st1.nrRunning ≤ 1 then Except.ok (st1, curr1, false)
  else do
    let idealRuntime ← schedSlice st1 curr1
    let deltaExec := (curr1.execTime + now - curr1.picked) - curr1.prevSumExecRuntime
    if idealRuntime < deltaExec then Except.ok (st1, curr1, true)
    else if deltaExec < st1.schedMinGranularity ∨ st1.enqueued < 1 then
      Except.ok (st1, curr1, false)
    else do
      let left ← fairLeftmost st1.runqueue
      if curr1.vruntime - left.vruntime < 0 then Except.ok (st1, curr1, false)
      else if idealRuntime < curr1.vruntime - left.vruntime then
        Except.ok (st1, curr1, true)
      else Except.ok (st1, curr1, false)

theorem except_bind_ok {α β : Type} (v : α) (f : α → Except String β) :
    (Except.ok v >>= f) = f v := rfl

theorem except_bind_err {α β : Type} (s : String) (f : α → Except String β) :
    ((Except.error s : Except String α) >>= f) = Except.error s := rfl

theorem ite_lt_max_q (a b : ℚ) : (if a < b then b else a) = max a b := by
  rcases le_or_lt b a with h | h
  · rw [if_neg (not_lt.mpr h), max_eq_left h]
  · rw [if_pos h, max_eq_right (le_of_lt h)]

theorem ite_lt_max_q2 (v m : ℚ) : (if v < m then m else v) = max m v := by
  rw [ite_lt_max_q, max_comm]

/-- Candidate value that `updateMinVruntime` clamps against: the (runnable)
process's vruntime, lowered to the tree minimum when one exists. -/
def minVruntimeCandidate (st : FairState) (p : FairProc) : Except String ℚ :=
  let vr1 := if p.runnable then p.vruntime else st.minVruntime
  if 0 < st.enqueued then do
    let leftmost ← fairLeftmost st.runqueue
    Except.ok (if p.runnable then
      (if leftmost.vruntime < vr1 then leftmost.vruntime else vr1)
      else leftmost.vruntime)
  else Except.ok vr1

theorem updateMinVruntime_shape {st : FairState} {p : FairProc} {st2 : FairState}
    (hok : updateMinVruntime st p = Except.ok st2) :
    ∃ cand, minVruntimeCandidate st p = Except.ok cand ∧
      st2 = { st with minVruntime := max st.minVruntime cand } := by
  rw [updateMinVruntime] at hok
  rw [minVruntimeCandidate]
  by_cases he : 0 < st.enqueued
  · rw [if_pos he] at hok
    rw [if_pos he]
    rcases hl : fairLeftmost st.runqueue with s | lm
    · rw [hl, except_bind_err] at hok
      cases hok
    · rw [hl, except_bind_ok] at hok
      refine ⟨_, rfl, ?_⟩
      have h2 := (Except.ok.inj hok).symm
      rw [h2, ite_lt_max_q2]
  · rw [if_neg he] at hok
    rw [if_neg he]
    refine ⟨_, rfl, ?_⟩
    have h2 := (Except.ok.inj hok).symm
    rw [h2, ite_lt_max_q2]

theorem updateMinVruntime_mono {st : FairState} {p : FairProc} {st2 : FairState}
    (hok : updateMinVruntime st p = Except.ok st2) :
    st.minVruntime ≤ st2.minVruntime := by
  rcases updateMinVruntime_shape hok with ⟨cand, _, hshape⟩
  rw [hshape]
  exact le_max_left _ _

theorem updateCurr_shape {st : FairState} {now : ℚ} {p : FairProc}
    {st2 : FairState} {p2 : FairProc}
    (hok : updateCurr st now p = Except.ok (st2, p2)) :
    ∃ m, st.minVruntime ≤ m ∧ st2 = { st with minVruntime := m } := by
  rw [updateCurr] at hok
  split at hok
  · have h2 := (Except.ok.inj hok)
    have hst : st = st2 := congrArg Prod.fst h2
    exact ⟨st.minVruntime, le_refl _, by rw [← hst]⟩
  · split at hok
    · have h2 := (Except.ok.inj hok)
      have hst : st = st2 := congrArg Prod.fst h2
      exact ⟨st.minVruntime, le_refl _, by rw [← hst]⟩
    · rcases hcd : calcDeltaFair (now - p.updated) p with s | dv
      · rw [hcd, except_bind_err] at hok
        cases hok
      · rw [hcd, except_bind_ok] at hok
        simp only [] at hok
        rcases hum : updateMinVruntime st
            { p with updated := now, vruntime := p.vruntime + dv } with s | st1
        · rw [hum, except_bind_err] at hok
          cases hok
        · rw [hum, except_bind_ok] at hok
          have h2 := (Except.ok.inj hok)
          have hst : st1 = st2 := congrArg Prod.fst h2
          rcases updateMinVruntime_shape hum with ⟨cand, _, hshape⟩
          exact ⟨max st.minVruntime cand, le_max_left _ _, by rw [← hst, hshape]⟩

theorem updateCurr_minV {st : FairState} {now : ℚ} {p : FairProc}
    {st2 : FairState} {p2 : FairProc}
    (hok : updateCurr st now p = Except.ok (st2, p2)) :
    st.minVruntime ≤ st2.minVruntime := by
  rcases updateCurr_shape hok with ⟨m, hm, hshape⟩
  rw [hshape]
  exact hm

theorem dequeueEntity_shape {st : FairState} {p : FairProc} {st2 : FairState}
    (hok : dequeueEntity st p = Except.ok st2) :
    ∃ rq, st2 = { st with runqueue := rq } := by
  rw [dequeueEntity] at hok
  split at hok
  · exact ⟨_, (Except.ok.inj hok).symm⟩
  · split at hok
    · cases hok
    · exact ⟨_, (Except.ok.inj hok).symm⟩
    · split at hok
      · exact ⟨_, (Except.ok.inj hok).symm⟩
      · split at hok
        · exact ⟨_, (Except.ok.inj hok).symm⟩
        · cases hok
    · split at hok
      · cases hok
      · split at hok
        · cases hok
        · exact ⟨_, (Except.ok.inj hok).symm⟩
  · cases hok

theorem except_bind_shape {α β : Type} {e : Except String α} {f : α → Except String β}
    {b : β} (h : (e >>= f) = Except.ok b) : ∃ a, e = Except.ok a ∧ f a = Except.ok b := by
  cases e with
  | error s =>
    rw [except_bind_err] at h
    cases h
  | ok a => exact ⟨a, rfl, h⟩

theorem enqueueEntity_minV (st : FairState) (p : FairProc) :
    (enqueueEntity st p).minVruntime = st.minVruntime := rfl


theorem fairEnqueue_minV {st : FairState} {now : ℚ} {simCurr p : FairProc}
    {st4 : FairState} {penq curr1 : FairProc}
    (hok : fairEnqueue st now simCurr p = Except.ok (st4, penq, curr1)) :
    st.minVruntime ≤ st4.minVruntime := by
  rw [fairEnqueue] at hok
  split at hok
  · cases hok
  · split at hok
    · cases hok
    · try simp only [] at hok
      obtain ⟨r1, hu, hok⟩ := except_bind_shape hok
      obtain ⟨st1, cu⟩ := r1
      try simp only [] at hok
      obtain ⟨lp, _, hok⟩ := except_bind_shape hok
      try simp only [] at hok
      have hmin1 : st.minVruntime ≤ st1.minVruntime := updateCurr_minV hu
      split at hok
      · -- brand-new task: placeEntity on the (classVruntime-updated) state
        obtain ⟨p2b, _, hok⟩ := except_bind_shape hok
        try simp only [] at hok
        obtain ⟨st3v, hst3v, hok⟩ := except_bind_shape hok
        try simp only [] at hok
        have h2 := Except.ok.inj hok
        injection h2 with h2a h2b
        rw [← h2a, enqueueEntity_minV]
        have h3 := Except.ok.inj hst3v
        rw [← h3]
        split <;> exact hmin1
      · split at hok
        · -- waking task: placeEntity with the sleeper bonus
          obtain ⟨p2b, _, hok⟩ := except_bind_shape hok
          try simp only [] at hok
          obtain ⟨st3v, hst3v, hok⟩ := except_bind_shape hok
          try simp only [] at hok
          have h2 := Except.ok.inj hok
          injection h2 with h2a h2b
          rw [← h2a, enqueueEntity_minV]
          have h3 := Except.ok.inj hst3v
          rw [← h3]
          exact hmin1
        · -- neither new nor waking: direct insert
          obtain ⟨st3v, hst3v, hok⟩ := except_bind_shape hok
          try simp only [] at hok
          have h2 := Except.ok.inj hok
          injection h2 with h2a h2b
          rw [← h2a, enqueueEntity_minV]
          have h3 := Except.ok.inj hst3v
          rw [← h3]
          exact hmin1

theorem fairDequeue_minV {st : FairState} {now : ℚ} {simCurr p : FairProc}
    {st3 : FairState} {pout curr1 : FairProc}
    (hok : fairDequeue st now simCurr p = Except.ok (st3, pout, curr1)) :
    st.minVruntime ≤ st3.minVruntime := by
  rw [fairDequeue] at hok
  split at hok
  · cases hok
  · try simp only [] at hok
    obtain ⟨r1, hu, hok⟩ := except_bind_shape hok
    obtain ⟨st1, cu⟩ := r1
    try simp only [] at hok
    obtain ⟨st2, hdq, hok⟩ := except_bind_shape hok
    try simp only [] at hok
    obtain ⟨lp, _, hok⟩ := except_bind_shape hok
    try simp only [] at hok
    have h2 := Except.ok.inj hok
    injection h2 with h2a h2b
    rw [← h2a]
    rcases dequeueEntity_shape hdq with ⟨rq, hshape⟩
    show st.minVruntime ≤ st2.minVruntime
    rw [hshape]
    show st.minVruntime ≤ st1.minVruntime
    exact updateCurr_minV hu

theorem fairPutPrev_minV {st : FairState} {now : ℚ} {prev : FairProc}
    {st2 : FairState} {prev2 : FairProc}
    (hok : fairPutPrev st now prev = Except.ok (st2, prev2)) :
    st.minVruntime ≤ st2.minVruntime := by
  rw [fairPutPrev] at hok
  obtain ⟨r1, hu, hok⟩ := except_bind_shape hok
  obtain ⟨st1, p1⟩ := r1
  try simp only [] at hok
  split at hok
  · have h2 := Except.ok.inj hok
    injection h2 with h2a h2b
    rw [← h2a]
    show st.minVruntime ≤ st1.minVruntime
    exact updateCurr_minV hu
  · have h2 := Except.ok.inj hok
    injection h2 with h2a h2b
    rw [← h2a]
    show st.minVruntime ≤ st1.minVruntime
    exact updateCurr_minV hu

theorem simPutPrev_minV {st : FairState} {now : ℚ} {prev : FairProc}
    {st2 : FairState} {prev2 : FairProc}
    (hok : simPutPrev st now prev = Except.ok (st2, prev2)) :
    st.minVruntime ≤ st2.minVruntime := by
  rw [simPutPrev] at hok
  split at hok
  · exact fairPutPrev_minV hok
  · have h2 := Except.ok.inj hok
    injection h2 with h2a h2b
    rw [← h2a]

theorem fairPickNext_minV {st : FairState} {now : ℚ} {prev : FairProc}
    {st2 : FairState} {next : Option FairProc} {prev2 : FairProc}
    (hok : fairPickNext st now prev = Except.ok (st2, next, prev2)) :
    st.minVruntime ≤ st2.minVruntime := by
  rw [fairPickNext] at hok
  split at hok
  · have h2 := Except.ok.inj hok
    injection h2 with h2a h2b
    rw [← h2a]
  · split at hok
    · obtain ⟨r1, hp, hok⟩ := except_bind_shape hok
      obtain ⟨st1, p1⟩ := r1
      try simp only [] at hok
      have h2 := Except.ok.inj hok
      injection h2 with h2a h2b
      rw [← h2a]
      show st.minVruntime ≤ st1.minVruntime
      exact simPutPrev_minV hp
    · obtain ⟨r1, hp, hok⟩ := except_bind_shape hok
      obtain ⟨st1, p1⟩ := r1
      try simp only [] at hok
      obtain ⟨picked, _, hok⟩ := except_bind_shape hok
      obtain ⟨stq, hdq, hok⟩ := except_bind_shape hok
      try simp only [] at hok
      have h2 := Except.ok.inj hok
      injection h2 with h2a h2b
      rw [← h2a]
      rcases dequeueEntity_shape hdq with ⟨rq, hshape⟩
      show st.minVruntime ≤ stq.minVruntime
      rw [hshape]
      show st.minVruntime ≤ st1.minVruntime
      exact simPutPrev_minV hp

theorem fairCheckPreempt_minV {st : FairState} {now : ℚ} {simCurr p : FairProc}
    {st2 : FairState} {c2 : FairProc} {resched : Bool}
    (hok : fairCheckPreempt st now simCurr p = Except.ok (st2, c2, resched)) :
    st.minVruntime ≤ st2.minVruntime := by
  rw [fairCheckPreempt] at hok
  obtain ⟨r1, hu, hok⟩ := except_bind_shape hok
  obtain ⟨st1, cu⟩ := r1
  try simp only [] at hok
  obtain ⟨g, _, hok⟩ := except_bind_shape hok
  have h2 := Except.ok.inj hok
  injection h2 with h2a h2b
  rw [← h2a]
  show st.minVruntime ≤ st1.minVruntime
  exact updateCurr_minV hu

theorem fairTaskTick_minV {st : FairState} {now : ℚ} {simCurr : FairProc}
    {st2 : FairState} {c2 : FairProc} {resched : Bool}
    (hok : fairTaskTick st now simCurr = Except.ok (st2, c2, resched)) :
    st.minVruntime ≤ st2.minVruntime := by
  rw [fairTaskTick] at hok
  obtain ⟨r1, hu, hok⟩ := except_bind_shape hok
  obtain ⟨st1, cu⟩ := r1
  try simp only [] at hok
  have hbase : st.minVruntime ≤ st1.minVruntime := updateCurr_minV hu
  split at hok
  · have h2 := Except.ok.inj hok
    injection h2 with h2a h2b
    rw [← h2a]
    exact hbase
  · obtain ⟨ideal, _, hok⟩ := except_bind_shape hok
    try simp only [] at hok
    split at hok
    · have h2 := Except.ok.inj hok
      injection h2 with h2a h2b
      rw [← h2a]
      exact hbase
    · split at hok
      · have h2 := Except.ok.inj hok
        injection h2 with h2a h2b
        rw [← h2a]
        exact hbase
      · obtain ⟨left, _, hok⟩ := except_bind_shape hok
        split at hok
        · have h2 := Except.ok.inj hok
          injection h2 with h2a h2b
          rw [← h2a]
          exact hbase
        · split at hok
          · have h2 := Except.ok.inj hok
            injection h2 with h2a h2b
            rw [← h2a]
            exact hbase
          · have h2 := Except.ok.inj hok
            injection h2 with h2a h2b
            rw [← h2a]
            exact hbase

/-- C7: the fair policy's `min_vruntime` is monotonically non-decreasing:
`updateMinVruntime` always sets it to the maximum of its previous value and a
candidate derived from the current process's vruntime (when runnable) and the
tree minimum, and every fair-policy operation that can reach it via
`updateCurr` — enqueue, dequeue, pickNext (through putPrev), putPrev,
checkPreempt and taskTick — never decreases `min_vruntime`. -/
theorem fair_minVruntime_monotone :
    (∀ st p st2, updateMinVruntime st p = Except.ok st2 →
      ∃ cand, minVruntimeCandidate st p = Except.ok cand ∧
        st2.minVruntime = max st.minVruntime cand ∧
        st.minVruntime ≤ st2.minVruntime) ∧
    (∀ st now p st2 p2, updateCurr st now p = Except.ok (st2, p2) →
      st.minVruntime ≤ st2.minVruntime) ∧
    (∀ st now simCurr p st4 penq curr1,
      fairEnqueue st now simCurr p = Except.ok (st4, penq, curr1) →
      st.minVruntime ≤ st4.minVruntime) ∧
    (∀ st now simCurr p st3 pout curr1,
      fairDequeue st now simCurr p = Except.ok (st3, pout, curr1) →
      st.minVruntime ≤ st3.minVruntime) ∧
    (∀ st now prev st2 prev2,
      fairPutPrev st now prev = Except.ok (st2, prev2) →
      st.minVruntime ≤ st2.minVruntime) ∧
    (∀ st now prev st2 nx prev2,
      fairPickNext st now prev = Except.ok (st2, nx, prev2) →
      st.minVruntime ≤ st2.minVruntime) ∧
    (∀ st now simCurr p st2 c2 r,
      fairCheckPreempt st now simCurr p = Except.ok (st2, c2, r) →
      st.minVruntime ≤ st2.minVruntime) ∧
    (∀ st now simCurr st2 c2 r,
      fairTaskTick st now simCurr = Except.ok (st2, c2, r) →
      st.minVruntime ≤ st2.minVruntime) := by
  refine ⟨?_, ?_, ?_, ?_, ?_, ?_, ?_, ?_⟩
  · intro st p st2 hok
    rcases updateMinVruntime_shape hok with ⟨cand, hcand, hshape⟩
    exact ⟨cand, hcand, by rw [hshape], by rw [hshape]; exact le_max_left _ _⟩
  · intro st now p st2 p2 hok
    exact updateCurr_minV hok
  · intro st now simCurr p st4 penq curr1 hok
    exact fairEnqueue_minV hok
  · intro st now simCurr p st3 pout curr1 hok
    exact fairDequeue_minV hok
  · intro st now prev st2 prev2 hok
    exact fairPutPrev_minV hok
  · intro st now prev st2 nx prev2 hok
    exact fairPickNext_minV hok
  · intro st now simCurr p st2 c2 r hok
    exact fairCheckPreempt_minV hok
  · intro st now simCurr st2 c2 r hok
    exact fairTaskTick_minV hok

/-- Concrete fair-class state for the C7 witness: empty tree,
`minVruntime = 3`, default class parameters. -/
def fairStateW : FairState :=
  { runqueue := [], enqueued := 0, load := 0, minVruntime := 3, curr := none,
    nrRunning := 0, timeScale := 1000000, minGranularity := 1000000,
    schedLatency := 8000000, schedWakeupGranularity := 1000000,
    schedMinGranularity := 1000000, schedNrLatency := 8, startDebit := false,
    classVruntime := 0 }

/-- Concrete runnable fair process with vruntime 5 for the C7 witness. -/
def fairProcW : FairProc :=
  { pid := 1, alive := true, runnable := true, onRq := false, isFair := true,
    priority := 0, vruntime := 5, updated := 0, picked := 0, execTime := 0,
    prevSumExecRuntime := 0, enqueueWakeup := false, load := 0 }

/-- Witness for C7: updating against a runnable process of vruntime 5 raises
`minVruntime` from 3 to `max 3 5`, never below its old value. -/
theorem fair_minVruntime_monotone_witness :
    ∃ cand, minVruntimeCandidate fairStateW fairProcW = Except.ok cand ∧
      ({ fairStateW with minVruntime := 5 } : FairState).minVruntime =
        max fairStateW.minVruntime cand ∧
      fairStateW.minVruntime ≤
        ({ fairStateW with minVruntime := 5 } : FairState).minVruntime := by
  exact fair_minVruntime_monotone.1 fairStateW fairProcW _ (by rfl)

/-- Addition of JavaScript numbers on the fair placement path: `none` is
NaN (and `undefined`, which enters `+` as NaN); NaN poisons every later
arithmetic step. -/
def jsAdd : Option ℚ → Option ℚ → Option ℚ
  | some a, some b => some (a + b)
  | _, _ => none

/-- Subtraction of JavaScript numbers, NaN-propagating. -/
def jsSub : Option ℚ → Option ℚ → Option ℚ
  | some a, some b => some (a - b)
  | _, _ => none

/-- LinuxFairClass.calcDelta on JavaScript numbers:
`deltaExec * weight / loadWeight`, NaN if any operand is. -/
def jsCalcDelta : Option ℚ → Option ℚ → Option ℚ → Option ℚ
  | some d, some w, some l => some (d * w / l)
  | _, _, _ => none

/-- The value of `proc.load`: no statement in the sources ever writes a
`load` field on a process (the fair class's init only sets `enqueueWakeup`,
`vruntime` and `prevSumExecRuntime`), so reading it yields `undefined`. -/
def procLoadJs : Option ℚ := none

/-- LinuxFairClass.schedSlice with JavaScript number semantics: for an
off-runqueue process other than the class's current one — the situation of
every enqueue — the local load is `this.load + proc.load`, and `proc.load`
is `undefined`, so the load and with it the whole slice become NaN. -/
def schedSliceJs (st : FairState) (p : FairProc) : Except String (Option ℚ) := do
  let slice := schedPeriod st (if p.onRq then st.enqueued else st.enqueued + 1)
  let notCurr : Bool := match st.curr with | some c => c.pid != p.pid | none => true
  let load := if p.onRq = false ∧ notCurr = true then jsAdd (some st.load) procLoadJs else some st.load
  let wp ← getLoad p.priority
  Except.ok (jsCalcDelta (some slice) (some wp) load)

/-- LinuxFairClass.calcDeltaFair on a possibly-NaN delta. -/
def calcDeltaFairJs (delta : Option ℚ) (p : FairProc) : Except String (Option ℚ) :=
  if p.priority = 0 then Except.ok delta
  else do
    let w0 ← getLoad 0
    let wp ← getLoad p.priority
    Except.ok (jsCalcDelta delta (some w0) (some wp))

/-- LinuxFairClass.schedVslice with JavaScript number semantics. -/
def schedVsliceJs (st : FairState) (p : FairProc) : Except String (Option ℚ) := do
  let s ← schedSliceJs st p
  calcDeltaFairJs s p

/-- LinuxFairClass.placeEntity with JavaScript number semantics: the final
clamp `proc.vruntime = proc.vruntime < vruntime ? vruntime : proc.vruntime`
keeps the old vruntime when the computed placement is NaN, because any `<`
comparison against NaN is false. -/
def placeEntityJs (st : FairState) (p : FairProc) (initial : Bool) :
    Except String FairProc := do
  let vr1 ←
    if initial ∧ st.startDebit then do
      let vs ← schedVsliceJs st p
      Except.ok (jsAdd (some st.minVruntime) vs)
    else Except.ok (some st.minVruntime)
  let vr2 := if initial = false then jsSub vr1 (some (st.schedLatency / 2)) else vr1
  Except.ok { p with vruntime := match vr2 with | some v => if p.vruntime < v then v else p.vruntime | none => p.vruntime }

/-- LinuxFairClass.enqueue with JavaScript number semantics on the placement
path; everything else exactly as in `fairEnqueue`. -/
def fairEnqueueJs (st : FairState) (now : ℚ) (simCurr p : FairProc) :
    Except String (FairState × FairProc × FairProc) :=
  if p.alive = false then Except.error "attempting to enqueue a dead process."
  else if p.onRq = true then
    Except.error "attempting to enqueue a process that is already on the runqueue."
  else do
    let p1 := { p with onRq := false }
    let (st1, curr1) ← updateCurr st now simCurr
    let lp ← getLoad p1.priority
    let st2 := { st1 with load := st1.load + lp, enqueued := st1.enqueued + 1 }
    let (st3, p2) ←
      if p1.vruntime = 0 then do
        let st2b := if curr1.isFair then { st2 with classVruntime := curr1.vruntime } else st2
        let p2 ← placeEntityJs st2b p1 true
        Except.ok (st2b, p2)
      else if p1.enqueueWakeup then do
        let p2 ← placeEntityJs st2 p1 false
        Except.ok (st2, { p2 with enqueueWakeup := false })
      else Except.ok (st2, p1)
    let st4 := enqueueEntity st3 p2
    Except.ok (st4, { p2 with onRq := true }, curr1)

/-- Fair-class state for the C8 failing input: start debit enabled,
`minVruntime = 10`, empty tree, no current fair task. -/
def stBug8 : FairState :=
  { runqueue := [], enqueued := 0, load := 0, minVruntime := 10, curr := none,
    nrRunning := 0, timeScale := 1, minGranularity := 1, schedLatency := 4,
    schedWakeupGranularity := 1, schedMinGranularity := 1, schedNrLatency := 8,
    startDebit := true, classVruntime := 0 }

/-- Non-fair current process for the C8 failing input (the stats update is
the identity on it). -/
def simCurrBug8 : FairProc :=
  { pid := 0, alive := true, runnable := true, onRq := false, isFair := false,
    priority := 0, vruntime := 0, updated := 0, picked := 0, execTime := 0,
    prevSumExecRuntime := 0, enqueueWakeup := false, load := 0 }

/-- Brand-new fair process (vruntime still 0) being enqueued in the C8
failing input. -/
def newProcBug8 : FairProc :=
  { pid := 2, alive := true, runnable := true, onRq := false, isFair := true,
    priority := 0, vruntime := 0, updated := 0, picked := 0, execTime := 0,
    prevSumExecRuntime := 0, enqueueWakeup := false, load := 0 }

/-- The process as the buggy enqueue returns it: vruntime still 0 — the
start-debit placement never happened. -/
def penqBug8 : FairProc :=
  { pid := 2, alive := true, runnable := true, onRq := true, isFair := true,
    priority := 0, vruntime := 0, updated := 0, picked := 0, execTime := 0,
    prevSumExecRuntime := 0, enqueueWakeup := false, load := 0 }

/-- The class state after the buggy enqueue: the new task inserted at
key 0, load and enqueued count bumped, `minVruntime` still 10. -/
def stBugOut8 : FairState :=
  { stBug8 with runqueue := [(0, FairHolder.single newProcBug8)], enqueued := 1, load := 1024 }

/-- C8: the claimed start-debit placement of a brand-new task is lost in the
code.  `schedSlice` reads `proc.load` — a field no statement in the sources
ever writes, hence `undefined` — whenever the process is off the runqueue
and not the class's current one, which is exactly the situation of an
enqueue: the local load becomes `this.load + undefined = NaN`, the vslice is
NaN, and `placeEntity`'s clamp `proc.vruntime < vruntime` is false against
NaN, so the task keeps vruntime 0 instead of the claimed
`max(vruntime, min_vruntime + sched_vslice)`.  Concretely: with start debit
on and `min_vruntime = 10` the end-to-end enqueue returns the new task at
vruntime 0, strictly below `min_vruntime`, while the claimed placement would
be at least 10 for any real vslice.  The waking-task arm
(`max(old, min_vruntime - sched_latency/2)`) involves no NaN and behaves as
claimed. -/
theorem fair_startDebit_placement_lost :
    schedVsliceJs { stBug8 with load := 1024, enqueued := 1 } newProcBug8 = Except.ok none ∧
    fairEnqueueJs stBug8 0 simCurrBug8 newProcBug8 = Except.ok (stBugOut8, penqBug8, simCurrBug8) ∧
    penqBug8.vruntime = 0 ∧ stBug8.startDebit = true ∧
    penqBug8.vruntime < stBug8.minVruntime := by
  refine ⟨by with_unfolding_all rfl, by with_unfolding_all rfl, rfl, rfl, ?_⟩
  show (0 : ℚ) < 10
  norm_num

end SchedLinSim
